import Mathlib

/-!
Verification of the dynamodb-expression crate's path/condition/update
compiler against its natural-language specification.

Strings are modelled as lists of characters (`Chars`). Rust's byte indices
returned by `str::find` coincide, for the slicing done by the parser, with
character indices, because the searched characters (`[`, `]`, `.`) are ASCII.
Definitions are translated from the repository sources under `src/`; parts of
the crate whose sources are absent (`value.rs`, `operand.rs`, `name.rs`,
`condition/mod.rs`, `expression.rs`) are modelled from the specification and
are marked `Modelled from the spec:` in their doc comments.
-/

namespace DynExp

abbrev Chars := List Char

/-! ## Decimal digits and Rust's `u32::from_str` -/

/-- Character for a single decimal digit value (0–9). -/
def digitChar : Nat → Char
  | 0 => '0' | 1 => '1' | 2 => '2' | 3 => '3' | 4 => '4'
  | 5 => '5' | 6 => '6' | 7 => '7' | 8 => '8' | _ => '9'

/-- Numeric value of a decimal digit character. -/
def digitVal (c : Char) : Nat := c.toNat - 48

/-- Value of a decimal digit string, most significant digit first. -/
def digitsVal (s : Chars) : Nat := s.foldl (fun a c => a * 10 + digitVal c) 0

/-- Decimal digits of `n`, with `fuel` bounding the recursion depth
(`fuel > n` always suffices). -/
def natDigitsF : Nat → Nat → Chars
  | 0, _ => []
  | fuel + 1, n =>
    if n < 10 then [digitChar n]
    else natDigitsF fuel (n / 10) ++ [digitChar (n % 10)]

/-- Canonical decimal rendering of a natural number (no sign, no leading
zeros), as produced by Rust's `Display` for `u32`. -/
def natDigits (n : Nat) : Chars := natDigitsF (n + 1) n

/-- Drops one leading `+`, as Rust's integer `FromStr` does. -/
def stripPlus : Chars → Chars
  | [] => []
  | a :: r => if a = '+' then r else a :: r

/-- Model of Rust's `"…".parse::<u32>()`: an optional leading `+`, then one
or more ASCII digits, and the value must fit in 32 bits. Overflow is checked
per step in Rust, which for base-10 digit strings is equivalent to the final
bound check done here. -/
def parseU32 (s : Chars) : Option Nat :=
  if stripPlus s ≠ [] ∧ (stripPlus s).all Char.isDigit then
    if digitsVal (stripPlus s) < 2 ^ 32 then some (digitsVal (stripPlus s))
    else none
  else none

/-- Boolean form of "this bracket-contents text is accepted by
`u32::from_str`". -/
def u32LitB (s : Chars) : Bool :=
  !(stripPlus s).isEmpty && (stripPlus s).all Char.isDigit &&
    decide (digitsVal (stripPlus s) < 2 ^ 32)

/-! ## `str::find`: index of the first occurrence of a character -/

/-- Index of the first occurrence of `c`, the model of Rust's
`str::find(char)`. -/
def findChar (c : Char) : Chars → Option Nat
  | [] => none
  | a :: l => if a = c then some 0 else (findChar c l).map Nat.succ

/-! ## The `Path` / `Element` data model (`src/path/mod.rs`)

The crate's `Name` type (its source file is absent) is a plain wrapper around
a string; names are modelled directly as `Chars`. Indices are `u32` in the
source and are modelled as `Nat` (the parser enforces the 32-bit bound). -/

/-- One segment of a document path: `Element` from `src/path/mod.rs`. -/
inductive Element where
  | name (n : Chars)
  | indexedField (n : Chars) (indexes : List Nat)
deriving DecidableEq, Repr

/-- The `IndexedField` struct from `src/path/mod.rs` (a name with a list of
indices, with no emptiness invariant of its own). -/
structure IndexedField where
  name : Chars
  indexes : List Nat
deriving DecidableEq, Repr

/-- A document path: ordered list of elements (`Path` in
`src/path/mod.rs`). -/
structure Path where
  path : List Element
deriving DecidableEq, Repr

/-- `Element::indexed_field` from `src/path/mod.rs`: degrades to a plain
name when the index list is empty. -/
def Element.mkIndexedField (n : Chars) (ixs : List Nat) : Element :=
  if ixs = [] then .name n else .indexedField n ixs

/-- `impl From<IndexedField> for Element` from `src/path/mod.rs`. -/
def Element.ofIndexedField (f : IndexedField) : Element :=
  if f.indexes = [] then .name f.name else .indexedField f.name f.indexes

/-- `impl From<(N, P)> for Element` from `src/path/mod.rs`: when the index
list is empty the result is a plain name, otherwise it goes through
`impl From<(N, P)> for IndexedField`, which copies both fields. -/
def Element.ofTuple (n : Chars) (ixs : List Nat) : Element :=
  if ixs = [] then .name n else .indexedField n ixs

/-- `impl<T: Into<Element>> From<T> for Path`: a one-element path. -/
def Path.fromElement (e : Element) : Path := ⟨[e]⟩

/-- `impl FromIterator for Path`: collects the iterator's elements, with no
further processing. -/
def Path.fromIter (l : List Element) : Path := ⟨l⟩

/-! ## Rendering (`Display` impls in `src/path/mod.rs`) -/

/-- One bracketed index, `[i]`. -/
def renderIndex (i : Nat) : Chars := '[' :: (natDigits i ++ [']'])

/-- `Display` for `Element` / `IndexedField`: the name followed by each
index bracketed, in order. -/
def renderElement : Element → Chars
  | .name n => n
  | .indexedField n ixs => n ++ ixs.flatMap renderIndex

/-- Joins parts with `.` separators (the first-flag loop in `Path`'s
`Display`). -/
def joinDot : List Chars → Chars
  | [] => []
  | s :: r =>
    match r with
    | [] => s
    | _ :: _ => s ++ '.' :: joinDot r

/-- `Display` for `Path`: elements joined with dots. -/
def renderPath (p : Path) : Chars := joinDot (p.path.map renderElement)

/-! ## Parsing (`FromStr` impls in `src/path/mod.rs`)

`elemLoopF` is the `while` loop of `impl FromStr for Element`, with `fuel`
bounding the iteration count (each iteration strictly shrinks `rem`, so
`rem.length + 1` fuel always suffices). `none` is `PathParseError`. -/

def elemLoopF : Nat → Chars → Option Chars → List Nat → Option (Option Chars × List Nat)
  | 0, _, _, _ => none
  | _ + 1, [], nm, ixs => some (nm, ixs)
  | fuel + 1, rem@(_ :: _), nm, ixs =>
    match findChar '[' rem, findChar ']' rem with
    | none, none => if nm.isSome then none else some (some rem, ixs)
    | none, some _ => none
    | some _, none => none
    | some o, some c =>
      if c ≤ o then none
      else
        match nm with
        | some n =>
          if 0 < o then none
          else
            match parseU32 ((rem.drop (o + 1)).take (c - (o + 1))) with
            | none => none
            | some v => elemLoopF fuel (rem.drop (c + 1)) (some n) (ixs ++ [v])
        | none =>
          if 0 < o then
            match parseU32 ((rem.drop (o + 1)).take (c - (o + 1))) with
            | none => none
            | some v => elemLoopF fuel (rem.drop (c + 1)) (some (rem.take o)) (ixs ++ [v])
          else none

/-- `impl FromStr for Element`. After the loop the Rust code re-checks that
`remaining` is empty; the loop only ever ends with `remaining` empty (the
source comments call that branch unreachable), so the check is not modelled.
When no index was collected the whole input becomes the name, exactly as in
the source (`Self::Name(input.into())`). -/
def elementFromStr (input : Chars) : Option Element :=
  match elemLoopF (input.length + 1) input none [] with
  | none => none
  | some (_, []) => some (.name input)
  | some (none, _ :: _) => none
  | some (some n, ixs) => some (.indexedField n ixs)

/-- Rust's `str::split('.')`: always at least one part, empty parts kept. -/
def splitDot : Chars → List Chars
  | [] => [[]]
  | c :: r =>
    if c = '.' then [] :: splitDot r
    else
      match splitDot r with
      | [] => [[c]]
      | s :: ss => (c :: s) :: ss

/-- `Iterator::try_collect` over `Option`: all parts must parse. -/
def mapOption (f : α → Option β) : List α → Option (List β)
  | [] => some []
  | a :: l => (f a).bind fun b => (mapOption f l).map fun bs => b :: bs

/-- `impl FromStr for Path`: split on dots, parse every segment. -/
def pathFromStr (s : Chars) : Option Path :=
  (mapOption elementFromStr (splitDot s)).map Path.mk

/-! ## Grammar checkers

`segOkB` states the segment grammar the parser actually accepts: a
bracket-free (possibly empty) name, optionally followed — only when the name
is non-empty — by one or more bracketed `u32` literals. `pathClaimOkB`
states the grammar exactly as the specification words it, with no 32-bit
bound on the bracket contents and with only a whole-input leading-bracket
restriction; the two disagree, which is what the error-handling claims are
settled against. -/

/-- Checks that `s` is a sequence of one or more `[lit]` blocks whose
contents pass `lit`; `fuel` bounds the recursion (`s.length + 1`
suffices). -/
def bracketBlocksF (lit : Chars → Bool) : Nat → Chars → Bool
  | 0, _ => false
  | _ + 1, [] => true
  | fuel + 1, c :: r =>
    if c = '[' then
      match findChar ']' r with
      | none => false
      | some i => lit (r.take i) && bracketBlocksF lit fuel (r.drop (i + 1))
    else false

/-- Segment grammar actually enforced by `impl FromStr for Element`. -/
def segOkB (s : Chars) : Bool :=
  match findChar '[' s with
  | none => !decide (']' ∈ s)
  | some o =>
    !decide (']' ∈ s.take o) && decide (0 < o) &&
      bracketBlocksF u32LitB ((s.drop o).length + 1) (s.drop o)

/-- Bracket contents as the specification's grammar words them: a valid
non-negative integer, with no size bound. -/
def claimLitB (s : Chars) : Bool := !s.isEmpty && s.all Char.isDigit

/-- Segment grammar as the specification/claim words it: a bracket-free name
followed by bracketed non-negative integers, with no 32-bit bound and with
no restriction on an empty name. -/
def segClaimOkB (s : Chars) : Bool :=
  match findChar '[' s with
  | none => !decide (']' ∈ s)
  | some o =>
    !decide (']' ∈ s.take o) &&
      bracketBlocksF claimLitB ((s.drop o).length + 1) (s.drop o)

/-- Path grammar exactly as the specification/claim words it: brackets
balanced and in order with integer contents, no name resuming after a
closing bracket without a dot, and the input does not start with `[`. -/
def pathClaimOkB (s : Chars) : Bool :=
  match s with
  | '[' :: _ => false
  | _ => (splitDot s).all segClaimOkB

/-- Text of a sequence of bracketed index literals: `[d0][d1]…`. -/
def bracketSeq (ds : List Chars) : Chars :=
  ds.flatMap fun d => '[' :: (d ++ [']'])

/-- Value denoted by an index literal accepted by `parseU32`. -/
def litVal (d : Chars) : Nat := digitsVal (stripPlus d)

/-- A name as it can occur in a parsed element: free of brackets and
dots. -/
def elemNameOk (n : Chars) : Prop := '[' ∉ n ∧ ']' ∉ n ∧ '.' ∉ n

/-- Shape of every element produced by the parser: a clean name, and for an
indexed field a non-empty name, a non-empty index list, and indices below
`2^32`. -/
def ElemCanon : Element → Prop
  | .name n => elemNameOk n
  | .indexedField n ixs => elemNameOk n ∧ n ≠ [] ∧ ixs ≠ [] ∧ ∀ i ∈ ixs, i < 2 ^ 32

/-- A path-text segment whose index literals are written canonically (no
leading `+`, no leading zeros): the shape on which parsing then rendering
reproduces the text verbatim. -/
def CanonSeg (s : Chars) : Prop :=
  ∃ nm ixs, s = nm ++ bracketSeq (ixs.map natDigits) ∧ '[' ∉ nm ∧ ']' ∉ nm ∧
    (ixs ≠ [] → nm ≠ []) ∧ ∀ i ∈ ixs, i < 2 ^ 32

/-! ## Value and operand models

The crate's `value.rs` and `operand.rs` are absent from the sources in
scope. -/

/-- Modelled from the spec: `value.rs` is absent. A value is a literal (only
the precision-preserving decimal-text number kind is exercised by any claim;
the other literal kinds play no role here) or a reference carrying a
caller-supplied token that is used verbatim, never placeholder-substituted.
A reference displays as `:token`. -/
inductive Value where
  | num (s : Chars)
  | ref (tok : Chars)
deriving DecidableEq, Repr

/-- Modelled from the spec: `operand.rs` is absent. An operand is a path
reference, a literal value, or the element-count function applied to a
path. -/
inductive Operand where
  | path (p : Path)
  | value (v : Value)
  | size (p : Path)
deriving DecidableEq, Repr

/-- Modelled from the spec: plain (un-tokenized) display of a value, used by
the `Display` impls that render operands directly. -/
def renderValuePlain : Value → Chars
  | .num s => s
  | .ref tok => ':' :: tok

/-- Modelled from the spec: plain display of an operand. -/
def renderOperandPlain : Operand → Chars
  | .path p => renderPath p
  | .value v => renderValuePlain v
  | .size p => "size(".toList ++ renderPath p ++ [')']

/-! ## The comparison and In conditions (`src/condition/comparison.rs`,
`src/condition/in_.rs`) -/

/-- `Comparator` from `src/condition/comparison.rs`. -/
inductive Comparator where
  | eq | ne | lt | le | gt | ge
deriving DecidableEq, Repr

/-- `Comparator::as_str`. -/
def Comparator.asStr : Comparator → Chars
  | .eq => ['=']
  | .ne => ['<', '>']
  | .lt => ['<']
  | .le => ['<', '=']
  | .gt => ['>']
  | .ge => ['>', '=']

/-- `Comparison` from `src/condition/comparison.rs`. -/
structure Comparison where
  left : Operand
  cmp : Comparator
  right : Operand
deriving DecidableEq, Repr

/-- `Display` for `Comparison`: `{left} {cmp} {right}`. -/
def renderComparison (c : Comparison) : Chars :=
  renderOperandPlain c.left ++ ' ' :: c.cmp.asStr ++ ' ' :: renderOperandPlain c.right

/-- `In` from `src/condition/in_.rs`. -/
structure In where
  op : Operand
  items : List Operand
deriving DecidableEq, Repr

/-- Joins parts with a separator. -/
def joinSep (sep : Chars) : List Chars → Chars
  | [] => []
  | s :: r =>
    match r with
    | [] => s
    | _ :: _ => s ++ sep ++ joinSep sep r

/-- `Display` for `In`: `{op} IN ({item0},{item1},…)` (comma-joined, no
spaces, per the first-flag loop in the source). -/
def renderIn (i : In) : Chars :=
  renderOperandPlain i.op ++ " IN (".toList ++
    joinSep [','] (i.items.map renderOperandPlain) ++ [')']

/-! ## The condition AST

`condition/mod.rs` is absent from the sources in scope. -/

/-- Modelled from the spec: `condition/mod.rs` is absent. The condition tree
over the variants §3 lists. The payloads mirror the present per-variant
source files where those exist (`Comparison`, `In`). -/
inductive Condition where
  | comparison (left : Operand) (cmp : Comparator) (right : Operand)
  | between (op lower upper : Operand)
  | inList (op : Operand) (items : List Operand)
  | attributeExists (p : Path)
  | attributeNotExists (p : Path)
  | beginsWith (p : Path) (pre : Value)
  | contains (p : Path) (op : Operand)
  | attributeType (p : Path) (ty : Chars)
  | and (l r : Condition)
  | or (l r : Condition)
  | not (c : Condition)
deriving DecidableEq, Repr

/-! ## Substitution table and tokenized rendering

`expression.rs` is absent from the sources in scope. -/

/-- First position of `x` in a list. -/
def findPos {α : Type} [DecidableEq α] (x : α) : List α → Option Nat
  | [] => none
  | a :: l => if a = x then some 0 else (findPos x l).map Nat.succ

/-- Modelled from the spec: the substitution table of §4.4 — two growable
mappings, token index to attribute name and token index to literal value,
with append-if-absent lookups. -/
structure SubTable where
  names : List Chars
  values : List Value
deriving DecidableEq, Repr

/-- The table at the start of one compilation. -/
def SubTable.empty : SubTable := ⟨[], []⟩

/-- Token text: `#i` for names, `:i` for values. -/
def tokenChars (pre : Char) (i : Nat) : Chars := pre :: natDigits i

/-- Modelled from the spec: `name_token` of §4.4 — returns the existing
token when the name was already registered, else allocates the next
sequential `#i`. -/
def SubTable.nameToken (st : SubTable) (n : Chars) : Chars × SubTable :=
  match findPos n st.names with
  | some i => (tokenChars '#' i, st)
  | none => (tokenChars '#' st.names.length, ⟨st.names ++ [n], st.values⟩)

/-- Modelled from the spec: `value_token` of §4.4 — same discipline over the
value-token space `:i`, deduplicated by structural equality. -/
def SubTable.valueToken (st : SubTable) (v : Value) : Chars × SubTable :=
  match findPos v st.values with
  | some i => (tokenChars ':' i, st)
  | none => (tokenChars ':' st.values.length, ⟨st.names, st.values ++ [v]⟩)

/-- Modelled from the spec: an element rendered through the table — the name
becomes a `#i` token, the indices stay literal (`#i[3][7]`). -/
def renderElementSub (st : SubTable) : Element → Chars × SubTable
  | .name n => st.nameToken n
  | .indexedField n ixs =>
    let (t, st') := st.nameToken n
    (t ++ ixs.flatMap renderIndex, st')

/-- Elements joined with dots, threading the table. -/
def renderElemsSub (st : SubTable) : List Element → Chars × SubTable
  | [] => ([], st)
  | e :: r =>
    match r with
    | [] => renderElementSub st e
    | _ :: _ =>
      let (t, st') := renderElementSub st e
      let (rest, st'') := renderElemsSub st' r
      (t ++ '.' :: rest, st'')

/-- Modelled from the spec: a path rendered through the table. -/
def renderPathSub (st : SubTable) (p : Path) : Chars × SubTable :=
  renderElemsSub st p.path

/-- Modelled from the spec: an operand rendered through the table; a
reference value is emitted as the caller's literal token untouched, every
other value goes through `value_token`. -/
def renderOperandSub (st : SubTable) : Operand → Chars × SubTable
  | .path p => renderPathSub st p
  | .value (.ref tok) => (':' :: tok, st)
  | .value v => st.valueToken v
  | .size p =>
    let (t, st') := renderPathSub st p
    ("size(".toList ++ t ++ [')'], st')

/-- Operands comma-joined (no spaces), threading the table. -/
def renderOperandsSub (st : SubTable) : List Operand → Chars × SubTable
  | [] => ([], st)
  | o :: r =>
    match r with
    | [] => renderOperandSub st o
    | _ :: _ =>
      let (t, st') := renderOperandSub st o
      let (rest, st'') := renderOperandsSub st' r
      (t ++ ',' :: rest, st'')

/-- Modelled from the spec: the condition renderer of §4.2, threading the
substitution table. For `and`/`or` the children are rendered bare
(`{l} AND {r}`), the behavior the repository's own test `tests/simple.rs`
asserts for the compiled filter text; the specification's sentence that adds
parentheses is stated separately as `renderConditionSpecParens`. -/
def renderConditionSub (st : SubTable) : Condition → Chars × SubTable
  | .comparison l c r =>
    let (ls, st1) := renderOperandSub st l
    let (rs, st2) := renderOperandSub st1 r
    (ls ++ ' ' :: c.asStr ++ ' ' :: rs, st2)
  | .between op lo hi =>
    let (os, st1) := renderOperandSub st op
    let (las, st2) := renderOperandSub st1 lo
    let (uas, st3) := renderOperandSub st2 hi
    (os ++ " BETWEEN ".toList ++ las ++ " AND ".toList ++ uas, st3)
  | .inList op items =>
    let (os, st1) := renderOperandSub st op
    let (is, st2) := renderOperandsSub st1 items
    (os ++ " IN (".toList ++ is ++ [')'], st2)
  | .attributeExists p =>
    let (t, st') := renderPathSub st p
    ("attribute_exists(".toList ++ t ++ [')'], st')
  | .attributeNotExists p =>
    let (t, st') := renderPathSub st p
    ("attribute_not_exists(".toList ++ t ++ [')'], st')
  | .beginsWith p pre =>
    let (t, st1) := renderPathSub st p
    let (ps, st2) := renderOperandSub st1 (.value pre)
    ("begins_with(".toList ++ t ++ ',' :: ' ' :: ps ++ [')'], st2)
  | .contains p op =>
    let (t, st1) := renderPathSub st p
    let (os, st2) := renderOperandSub st1 op
    ("contains(".toList ++ t ++ ',' :: ' ' :: os ++ [')'], st2)
  | .attributeType p ty =>
    let (t, st') := renderPathSub st p
    ("attribute_type(".toList ++ t ++ ',' :: ' ' :: ty ++ [')'], st')
  | .and l r =>
    let (ls, st1) := renderConditionSub st l
    let (rs, st2) := renderConditionSub st1 r
    (ls ++ " AND ".toList ++ rs, st2)
  | .or l r =>
    let (ls, st1) := renderConditionSub st l
    let (rs, st2) := renderConditionSub st1 r
    (ls ++ " OR ".toList ++ rs, st2)
  | .not c =>
    let (cs, st') := renderConditionSub st c
    ("NOT (".toList ++ cs ++ [')'], st')

/-- The condition renderer exactly as the specification's §4.2 sentence for
`and`/`or` words it: both children are wrapped in parentheses,
`({l}) AND ({r})` / `({l}) OR ({r})`, at every nesting depth. Identical to
`renderConditionSub` on every other variant. Stated only to be compared with
the behavior the repository's test pins down. -/
def renderConditionSpecParens (st : SubTable) : Condition → Chars × SubTable
  | .and l r =>
    let (ls, st1) := renderConditionSpecParens st l
    let (rs, st2) := renderConditionSpecParens st1 r
    ('(' :: ls ++ ") AND (".toList ++ rs ++ [')'], st2)
  | .or l r =>
    let (ls, st1) := renderConditionSpecParens st l
    let (rs, st2) := renderConditionSpecParens st1 r
    ('(' :: ls ++ ") OR (".toList ++ rs ++ [')'], st2)
  | .not c =>
    let (cs, st') := renderConditionSpecParens st c
    ("NOT (".toList ++ cs ++ [')'], st')
  | c => renderConditionSub st c

/-! ## Key conditions (`src/key.rs`) -/

/-- `Key` from `src/key.rs`: a path that key-condition builders start
from. -/
structure Key where
  path : Path
deriving DecidableEq, Repr

/-- `KeyCondition` from `src/key.rs`: a wrapped condition. -/
structure KeyCondition where
  condition : Condition
deriving DecidableEq, Repr

/-- `Key::equal`: builds the comparison `path = right`. -/
def Key.equalTo (k : Key) (right : Operand) : KeyCondition :=
  ⟨.comparison (.path k.path) .eq right⟩

/-- `KeyCondition::and`. -/
def KeyCondition.andAlso (k : KeyCondition) (r : KeyCondition) : KeyCondition :=
  ⟨.and k.condition r.condition⟩

/-! ## The expression compiler

`expression.rs` is absent from the sources in scope. -/

/-- Paths rendered through the table and joined with `, ` (the projection
clause). -/
def renderPathsCommaSub (st : SubTable) : List Path → Chars × SubTable
  | [] => ([], st)
  | p :: r =>
    match r with
    | [] => renderPathSub st p
    | _ :: _ =>
      let (t, st') := renderPathSub st p
      let (rest, st'') := renderPathsCommaSub st' r
      (t ++ ',' :: ' ' :: rest, st'')

/-- Modelled from the spec: the output of one expression compilation —
per-clause strings (absent clauses are `none`, not empty strings) plus the
finished name and value maps, where token `#i` maps to `names[i]` and `:i`
to `values[i]`. -/
structure Expression where
  filter : Option Chars
  keyCondition : Option Chars
  projection : Option Chars
  names : List Chars
  values : List Value
deriving DecidableEq, Repr

/-- Modelled from the spec: the expression compiler of §4.5 — renders every
present clause against one shared substitution table created empty, in the
fixed order condition/filter, key-condition, projection. The update clause
is not part of the modelled fragment; no claim compiles an update through
the shared table. -/
def compileExpression (filter keyCond : Option Condition)
    (proj : Option (List Path)) : Expression :=
  let st0 : SubTable := SubTable.empty
  let fpair :=
    match filter with
    | none => ((none : Option Chars), st0)
    | some c =>
      let (t, st') := renderConditionSub st0 c
      (some t, st')
  let kpair :=
    match keyCond with
    | none => ((none : Option Chars), fpair.2)
    | some c =>
      let (t, st') := renderConditionSub fpair.2 c
      (some t, st')
  let ppair :=
    match proj with
    | none => ((none : Option Chars), kpair.2)
    | some paths =>
      let (t, st') := renderPathsCommaSub kpair.2 paths
      (some t, st')
  ⟨fpair.1, kpair.1, ppair.1, ppair.2.names, ppair.2.values⟩

/-- The filter condition compiled by the repository's integration test
`tests/simple.rs` (`query`, `qi_3`): `attribute_exists(name) AND age >= 2.5`.
The test asserts that its compiled filter text is exactly
`attribute_exists(#0) AND #1 >= :0` — with no parentheses around the
children of `AND`. -/
def simpleTestFilter : Condition :=
  .and (.attributeExists ⟨[.name "name".toList]⟩)
    (.comparison (.path ⟨[.name "age".toList]⟩) .ge
      (.value (.num "2.5".toList)))

/-- The key condition of the same test: `id = 42`, built through
`Key::from(Name::from("id")).equal(num_value(42))`. -/
def simpleTestKey : Condition :=
  ((Key.mk ⟨[.name "id".toList]⟩).equalTo (.value (.num "42".toList))).condition

/-- The projection of the same test: `["name", "age"]`. -/
def simpleTestProjection : List Path :=
  [⟨[.name "name".toList]⟩, ⟨[.name "age".toList]⟩]

/-! ## The Math update action (`src/update/set/math.rs`) -/

/-- `MathOp` from `src/update/set/math.rs`. -/
inductive MathOp where
  | add | sub
deriving DecidableEq, Repr

/-- `Display` for `MathOp`: `+` or `-`. -/
def mathOpChar : MathOp → Char
  | .add => '+'
  | .sub => '-'

/-- `Math` from `src/update/set/math.rs`. The `num` field is a `ValueOrRef`
in the source; the builder only ever stores a numeric literal in it, and it
is modelled as a `Value`. -/
structure Math where
  dst : Path
  src : Option Path
  op : MathOp
  num : Value
deriving DecidableEq, Repr

/-- `Display` for `Math`: `{dst} = {src} {op} {num}`, where `src` defaults
to `dst` when no source field was set. -/
def renderMath (m : Math) : Chars :=
  renderPath m.dst ++ ' ' :: '=' :: ' ' :: renderPath (m.src.getD m.dst) ++
    ' ' :: mathOpChar m.op :: ' ' :: renderValuePlain m.num

/-- The staged `Builder` from `src/update/set/math.rs`: destination plus an
optional source, consumed by a terminal `add`/`sub` call. -/
structure MathBuilder where
  dst : Path
  src : Option Path
deriving DecidableEq, Repr

/-- `Math::builder`. -/
def Math.builder (dst : Path) : MathBuilder := ⟨dst, none⟩

/-- `Builder::src`: sets the source field to read the initial value from. -/
def MathBuilder.setSrc (b : MathBuilder) (p : Path) : MathBuilder :=
  ⟨b.dst, some p⟩

/-- `Builder::with_op`: the shared terminal step. -/
def MathBuilder.withOp (b : MathBuilder) (op : MathOp) (n : Chars) : Math :=
  ⟨b.dst, b.src, op, .num n⟩

/-- `Builder::add`: terminal call selecting addition; the numeric argument
becomes a number value. -/
def MathBuilder.addNum (b : MathBuilder) (n : Chars) : Math := b.withOp .add n

/-- `Builder::sub`: terminal call selecting subtraction. -/
def MathBuilder.subNum (b : MathBuilder) (n : Chars) : Math := b.withOp .sub n

/-! ## Fallible-formatter mirror of the `Display` impls

Rust's `Display` returns `fmt::Result`; the impls in the sources propagate
errors from the underlying writer with `?` and never produce one themselves.
`FmtM` mirrors that error channel; `wr` is the `String` writer, which never
fails. The totality claim is settled by proving each mirrored impl always
returns `ok` of the accumulated text. -/

abbrev FmtM := Except Unit

/-- The `String` writer: appends and always succeeds, as `fmt::Write` for
`String` does. -/
def wr (s : Chars) (acc : Chars) : FmtM Chars := .ok (acc ++ s)

/-- The index loop of `IndexedField`'s `Display` (`try_for_each` of
`write!("[{}]", index)`). -/
def fmtIndexes : List Nat → Chars → FmtM Chars
  | [], acc => .ok acc
  | i :: r, acc => do fmtIndexes r (← wr (renderIndex i) acc)

/-- `Display` for `Element`, in the fallible-formatter mirror. -/
def fmtElement : Element → Chars → FmtM Chars
  | .name n, acc => wr n acc
  | .indexedField n ixs, acc => do fmtIndexes ixs (← wr n acc)

/-- The first-flag loop of `Path`'s `Display`. -/
def fmtPathElems : List Element → Bool → Chars → FmtM Chars
  | [], _, acc => .ok acc
  | e :: r, first, acc => do
    let acc ← if first then pure acc else wr ['.'] acc
    fmtPathElems r false (← fmtElement e acc)

/-- `Display` for `Path`, in the fallible-formatter mirror. -/
def fmtPath (p : Path) (acc : Chars) : FmtM Chars := fmtPathElems p.path true acc

/-- Modelled from the spec: `operand.rs` is absent; an operand's `Display`
is one write of its plain rendering. -/
def fmtOperand (o : Operand) (acc : Chars) : FmtM Chars :=
  wr (renderOperandPlain o) acc

/-- The first-flag comma loop of `In`'s `Display`. -/
def fmtInItems : List Operand → Bool → Chars → FmtM Chars
  | [], _, acc => .ok acc
  | o :: r, first, acc => do
    let acc ← if first then pure acc else wr [','] acc
    fmtInItems r false (← fmtOperand o acc)

/-- `Display` for `In` (`src/condition/in_.rs`), in the fallible-formatter
mirror. -/
def fmtIn (i : In) (acc : Chars) : FmtM Chars := do
  let acc ← fmtOperand i.op acc
  let acc ← wr " IN (".toList acc
  let acc ← fmtInItems i.items true acc
  wr [')'] acc

/-- `Display` for `Math` (`src/update/set/math.rs`), in the
fallible-formatter mirror. -/
def fmtMath (m : Math) (acc : Chars) : FmtM Chars := do
  let acc ← fmtPath m.dst acc
  let acc ← wr (' ' :: '=' :: [' ']) acc
  let acc ← fmtPath (m.src.getD m.dst) acc
  let acc ← wr [' '] acc
  let acc ← wr [mathOpChar m.op] acc
  let acc ← wr [' '] acc
  wr (renderValuePlain m.num) acc

/-! # Lemmas

## Decimal digits -/

theorem digitChar_spec {d : Nat} (h : d < 10) :
    (digitChar d).isDigit = true ∧ digitVal (digitChar d) = d := by
  interval_cases d <;> exact ⟨by decide, by decide⟩

theorem isDigit_ne_special {c : Char} (h : c.isDigit = true) :
    c ≠ '[' ∧ c ≠ ']' ∧ c ≠ '.' ∧ c ≠ '+' := by
  refine ⟨?_, ?_, ?_, ?_⟩ <;> rintro rfl <;> exact absurd h (by decide)

theorem natDigitsF_fuel : ∀ f f' n, n < f → n < f' →
    natDigitsF f n = natDigitsF f' n := by
  intro f
  induction f with
  | zero => omega
  | succ f ih =>
    intro f' n hf hf'
    cases f' with
    | zero => omega
    | succ f' =>
      simp only [natDigitsF]
      split
      · rfl
      · have hdiv : n / 10 < n := Nat.div_lt_self (by omega) (by omega)
        rw [ih f' (n / 10) (by omega) (by omega)]

theorem natDigits_eq (n : Nat) :
    natDigits n =
      if n < 10 then [digitChar n]
      else natDigits (n / 10) ++ [digitChar (n % 10)] := by
  show natDigitsF (n + 1) n = _
  simp only [natDigitsF]
  split
  · rfl
  · have hdiv : n / 10 < n := Nat.div_lt_self (by omega) (by omega)
    rw [natDigitsF_fuel n (n / 10 + 1) (n / 10) (by omega) (by omega)]
    rfl

theorem digitsVal_append_singleton (a : Chars) (c : Char) :
    digitsVal (a ++ [c]) = digitsVal a * 10 + digitVal c := by
  simp [digitsVal, List.foldl_append]

theorem natDigits_spec (n : Nat) :
    natDigits n ≠ [] ∧ (∀ c ∈ natDigits n, c.isDigit = true) ∧
      digitsVal (natDigits n) = n := by
  induction n using Nat.strong_induction_on with
  | _ n ih =>
    rw [natDigits_eq n]
    by_cases h : n < 10
    · simp only [if_pos h]
      refine ⟨by simp, ?_, ?_⟩
      · intro c hc
        rw [List.mem_singleton] at hc
        exact hc ▸ (digitChar_spec h).1
      · show digitsVal [digitChar n] = n
        have : digitsVal [digitChar n] = digitVal (digitChar n) := by
          simp [digitsVal]
        rw [this, (digitChar_spec h).2]
    · have hdiv : n / 10 < n := Nat.div_lt_self (by omega) (by omega)
      obtain ⟨h1, h2, h3⟩ := ih (n / 10) hdiv
      simp only [if_neg h]
      refine ⟨by simp, ?_, ?_⟩
      · intro c hc
        rcases List.mem_append.mp hc with hc | hc
        · exact h2 c hc
        · rw [List.mem_singleton] at hc
          exact hc ▸ (digitChar_spec (Nat.mod_lt _ (by omega))).1
      · rw [digitsVal_append_singleton, h3,
          (digitChar_spec (Nat.mod_lt _ (by omega))).2]
        omega

theorem natDigits_ne_nil (n : Nat) : natDigits n ≠ [] := (natDigits_spec n).1

theorem natDigits_isDigit {n : Nat} {c : Char} (h : c ∈ natDigits n) :
    c.isDigit = true := (natDigits_spec n).2.1 c h

theorem digitsVal_natDigits (n : Nat) : digitsVal (natDigits n) = n :=
  (natDigits_spec n).2.2

theorem stripPlus_natDigits (n : Nat) : stripPlus (natDigits n) = natDigits n := by
  cases hd : natDigits n with
  | nil => exact absurd hd (natDigits_ne_nil n)
  | cons a r =>
    have ha : a.isDigit = true := natDigits_isDigit (hd ▸ List.mem_cons_self a r)
    have : a ≠ '+' := (isDigit_ne_special ha).2.2.2
    simp [stripPlus, this]

/-! ## Rust `u32` parsing -/

theorem parseU32_eq_some_iff {s : Chars} {v : Nat} :
    parseU32 s = some v ↔
      stripPlus s ≠ [] ∧ (stripPlus s).all Char.isDigit = true ∧
        digitsVal (stripPlus s) = v ∧ digitsVal (stripPlus s) < 2 ^ 32 := by
  unfold parseU32
  split_ifs with h1 h2
  · simp only [Option.some.injEq]
    constructor
    · rintro rfl
      exact ⟨h1.1, h1.2, rfl, h2⟩
    · rintro ⟨-, -, rfl, -⟩
      rfl
  · simp only [reduceCtorEq, false_iff]
    rintro ⟨-, -, rfl, hv⟩
    exact h2 hv
  · simp only [reduceCtorEq, false_iff]
    rintro ⟨he, hall, -, -⟩
    exact h1 ⟨he, hall⟩

theorem parseU32_natDigits {n : Nat} (h : n < 2 ^ 32) :
    parseU32 (natDigits n) = some n := by
  rw [parseU32_eq_some_iff, stripPlus_natDigits, digitsVal_natDigits]
  exact ⟨natDigits_ne_nil n, List.all_eq_true.mpr fun c hc => natDigits_isDigit hc,
    rfl, h⟩

theorem u32LitB_iff_parse {s : Chars} :
    u32LitB s = true ↔ parseU32 s = some (litVal s) := by
  unfold u32LitB litVal
  rw [parseU32_eq_some_iff]
  simp [List.isEmpty_iff, and_assoc]

theorem parseU32_isSome_iff {s : Chars} : (parseU32 s).isSome = u32LitB s := by
  rw [Bool.eq_iff_iff, u32LitB_iff_parse, Option.isSome_iff_exists]
  constructor
  · rintro ⟨v, hv⟩
    have := parseU32_eq_some_iff.mp hv
    rwa [show v = litVal s from this.2.2.1.symm] at hv
  · intro h
    exact ⟨_, h⟩

theorem u32LitB_chars {d : Chars} (h : u32LitB d = true) :
    '[' ∉ d ∧ ']' ∉ d ∧ '.' ∉ d := by
  have hall : (stripPlus d).all Char.isDigit = true := by
    have := parseU32_eq_some_iff.mp (u32LitB_iff_parse.mp h)
    exact this.2.1
  have hmem : ∀ c ∈ d, c = '+' ∨ c.isDigit = true := by
    intro c hc
    cases d with
    | nil => simp at hc
    | cons a r =>
      by_cases ha : a = '+'
      · rw [List.mem_cons] at hc
        rcases hc with rfl | hc
        · exact Or.inl ha
        · refine Or.inr (List.all_eq_true.mp ?_ c hc)
          simpa [stripPlus, ha] using hall
      · refine Or.inr (List.all_eq_true.mp ?_ c hc)
        simpa [stripPlus, ha] using hall
  refine ⟨fun hc => ?_, fun hc => ?_, fun hc => ?_⟩ <;>
    rcases hmem _ hc with h' | h' <;> exact absurd h' (by decide)

theorem litVal_lt {d : Chars} (h : u32LitB d = true) : litVal d < 2 ^ 32 := by
  have := parseU32_eq_some_iff.mp (u32LitB_iff_parse.mp h)
  exact this.2.2.1 ▸ this.2.2.2

theorem u32LitB_natDigits {n : Nat} (h : n < 2 ^ 32) :
    u32LitB (natDigits n) = true := by
  rw [← parseU32_isSome_iff, parseU32_natDigits h]
  rfl

theorem litVal_natDigits (n : Nat) : litVal (natDigits n) = n := by
  unfold litVal
  rw [stripPlus_natDigits, digitsVal_natDigits]

theorem u32LitB_all_digits {d : Chars} (hne : d ≠ [])
    (hall : ∀ c ∈ d, c.isDigit = true) (hlt : digitsVal d < 2 ^ 32) :
    u32LitB d = true := by
  have hsp : stripPlus d = d := by
    cases d with
    | nil => rfl
    | cons a r =>
      have : a ≠ '+' :=
        (isDigit_ne_special (hall a (List.mem_cons_self a r))).2.2.2
      simp [stripPlus, this]
  unfold u32LitB
  rw [hsp]
  simp only [Bool.and_eq_true, decide_eq_true_eq]
  refine ⟨⟨?_, List.all_eq_true.mpr hall⟩, hlt⟩
  cases d with
  | nil => exact absurd rfl hne
  | cons a r => rfl

/-! ## `findChar` -/

theorem findChar_eq_none {c : Char} {l : Chars} :
    findChar c l = none ↔ c ∉ l := by
  induction l with
  | nil => simp [findChar]
  | cons a r ih =>
    rw [findChar]
    split_ifs with ha
    · subst ha
      simp
    · rw [Option.map_eq_none', List.mem_cons]
      rw [ih]
      constructor
      · intro h h'
        rcases h' with rfl | h'
        · exact ha rfl
        · exact h h'
      · intro h
        exact fun h' => h (Or.inr h')

theorem findChar_eq_some {c : Char} {l : Chars} {n : Nat} :
    findChar c l = some n ↔ ∃ a b, l = a ++ c :: b ∧ a.length = n ∧ c ∉ a := by
  induction l generalizing n with
  | nil =>
    simp only [findChar, reduceCtorEq, false_iff]
    rintro ⟨a, b, h, -, -⟩
    exact absurd h (by simp)
  | cons x r ih =>
    rw [findChar]
    split_ifs with hx
    · subst hx
      constructor
      · intro h
        cases h
        exact ⟨[], r, rfl, rfl, by simp⟩
      · rintro ⟨a, b, hl, rfl, hmem⟩
        cases a with
        | nil => simp_all
        | cons y a' =>
          rw [List.cons_append, List.cons.injEq] at hl
          exact absurd (hl.1 ▸ List.mem_cons_self x a') hmem
    · constructor
      · intro h
        obtain ⟨m, hm, rfl⟩ : ∃ m, findChar c r = some m ∧ n = m + 1 := by
          cases hfc : findChar c r with
          | none => rw [hfc] at h; exact absurd h (by simp)
          | some m =>
            rw [hfc] at h
            exact ⟨m, rfl, by cases h; rfl⟩
        obtain ⟨a, b, rfl, rfl, hmem⟩ := ih.mp hm
        exact ⟨x :: a, b, rfl, rfl, by
          rw [List.mem_cons]
          rintro (rfl | h)
          · exact hx rfl
          · exact hmem h⟩
      · rintro ⟨a, b, hl, rfl, hmem⟩
        cases a with
        | nil =>
          rw [List.nil_append, List.cons.injEq] at hl
          exact absurd hl.1 hx
        | cons y a' =>
          rw [List.cons_append, List.cons.injEq] at hl
          obtain ⟨rfl, hr⟩ := hl
          rw [ih.mpr ⟨a', b, hr, rfl, fun h => hmem (List.mem_cons_of_mem _ h)⟩]
          rfl

theorem findChar_append_not_mem {c : Char} {a b : Chars} (h : c ∉ a) :
    findChar c (a ++ c :: b) = some a.length :=
  findChar_eq_some.mpr ⟨a, b, rfl, rfl, h⟩

/-! ## `splitDot` and `joinDot` -/

theorem splitDot_cons (c : Char) (r : Chars) :
    splitDot (c :: r) =
      if c = '.' then [] :: splitDot r
      else
        match splitDot r with
        | [] => [[c]]
        | s :: ss => (c :: s) :: ss := rfl

theorem splitDot_ne_nil (s : Chars) : splitDot s ≠ [] := by
  cases s with
  | nil => simp [splitDot]
  | cons c r =>
    rw [splitDot_cons]
    split_ifs
    · simp
    · cases splitDot r <;> simp

theorem splitDot_no_dot {s : Chars} : ∀ part ∈ splitDot s, '.' ∉ part := by
  induction s with
  | nil =>
    intro part hp
    rw [splitDot] at hp
    rw [List.mem_singleton] at hp
    subst hp
    simp
  | cons c r ih =>
    intro part hp
    rw [splitDot_cons] at hp
    split_ifs at hp with hc
    · rcases List.mem_cons.mp hp with rfl | hp
      · simp
      · exact ih part hp
    · rcases hsp : splitDot r with _ | ⟨s0, ss⟩
      · exact absurd hsp (splitDot_ne_nil r)
      · rw [hsp] at hp
        rcases List.mem_cons.mp hp with rfl | hp
        · intro hmem
          rcases List.mem_cons.mp hmem with hh | hmem
          · exact hc hh.symm
          · exact ih s0 (hsp ▸ List.mem_cons_self s0 ss) hmem
        · exact ih part (hsp ▸ List.mem_cons_of_mem s0 hp)

theorem joinDot_splitDot (s : Chars) : joinDot (splitDot s) = s := by
  induction s with
  | nil => rfl
  | cons c r ih =>
    rw [splitDot_cons]
    split_ifs with hc
    · subst hc
      rcases hsp : splitDot r with _ | ⟨s0, ss⟩
      · exact absurd hsp (splitDot_ne_nil r)
      · rw [hsp] at ih
        show joinDot ([] :: s0 :: ss) = '.' :: r
        rw [joinDot, ← ih]
        rfl
    · rcases hsp : splitDot r with _ | ⟨s0, ss⟩
      · exact absurd hsp (splitDot_ne_nil r)
      · rw [hsp] at ih
        cases ss with
        | nil =>
          show joinDot [c :: s0] = c :: r
          rw [joinDot, ← ih]
          rfl
        | cons t ts =>
          show joinDot ((c :: s0) :: t :: ts) = c :: r
          rw [joinDot, ← ih]
          rfl

theorem splitDot_append_no_dot {m : Chars} (hm : '.' ∉ m) :
    ∀ t s0 ss, splitDot t = s0 :: ss →
      splitDot (m ++ t) = (m ++ s0) :: ss := by
  induction m with
  | nil =>
    intro t s0 ss h
    simpa using h
  | cons c m' ih =>
    intro t s0 ss h
    have hc : ¬c = '.' := fun h' => hm (h' ▸ List.mem_cons_self c m')
    have hm' : '.' ∉ m' := fun h' => hm (List.mem_cons_of_mem c h')
    rw [List.cons_append, splitDot_cons, if_neg hc, ih hm' t s0 ss h]
    rfl

theorem splitDot_no_dot_eq {p : Chars} (hp : '.' ∉ p) : splitDot p = [p] := by
  have h := splitDot_append_no_dot hp [] [] [] rfl
  simpa using h

theorem splitDot_append_dot {p t : Chars} (hp : '.' ∉ p) :
    splitDot (p ++ '.' :: t) = p :: splitDot t := by
  rcases hsp : splitDot t with _ | ⟨s0, ss⟩
  · exact absurd hsp (splitDot_ne_nil t)
  · have h1 : splitDot ('.' :: t) = [] :: s0 :: ss := by
      rw [splitDot_cons, if_pos rfl, hsp]
    have h2 := splitDot_append_no_dot hp ('.' :: t) [] (s0 :: ss) h1
    rw [h2]
    simp

theorem splitDot_joinDot : ∀ parts : List Chars, parts ≠ [] →
    (∀ p ∈ parts, '.' ∉ p) → splitDot (joinDot parts) = parts := by
  intro parts
  induction parts with
  | nil => simp
  | cons p r ih =>
    intro _ hnd
    cases r with
    | nil =>
      show splitDot (joinDot [p]) = [p]
      rw [joinDot]
      exact splitDot_no_dot_eq (hnd p (List.mem_cons_self p []))
    | cons q rs =>
      show splitDot (joinDot (p :: q :: rs)) = p :: q :: rs
      rw [joinDot, splitDot_append_dot (hnd p (List.mem_cons_self p _)),
        ih (by simp) (fun x hx => hnd x (List.mem_cons_of_mem p hx))]

theorem exists_seg_containing {m : Chars} (hm : '.' ∉ m) :
    ∀ a b : Chars, ∃ seg ∈ splitDot (a ++ m ++ b), ∃ x y, seg = x ++ m ++ y := by
  intro a
  induction a with
  | nil =>
    intro b
    rcases hsp : splitDot b with _ | ⟨s0, ss⟩
    · exact absurd hsp (splitDot_ne_nil b)
    · refine ⟨m ++ s0, ?_, [], s0, by simp⟩
      rw [List.nil_append, splitDot_append_no_dot hm b s0 ss hsp]
      exact List.mem_cons_self _ _
  | cons c a' ih =>
    intro b
    obtain ⟨seg, hseg, x, y, hxy⟩ := ih b
    by_cases hc : c = '.'
    · subst hc
      refine ⟨seg, ?_, x, y, hxy⟩
      show seg ∈ splitDot ('.' :: a' ++ m ++ b)
      rw [List.cons_append, List.cons_append, splitDot_cons, if_pos rfl]
      exact List.mem_cons_of_mem _ hseg
    · rcases hsp : splitDot (a' ++ m ++ b) with _ | ⟨s0, ss⟩
      · exact absurd hsp (splitDot_ne_nil _)
      · rw [hsp] at hseg
        have hgoal : splitDot (c :: a' ++ m ++ b) = (c :: s0) :: ss := by
          rw [List.cons_append, List.cons_append, splitDot_cons, if_neg hc, hsp]
        rcases List.mem_cons.mp hseg with rfl | hmem
        · exact ⟨c :: seg, by rw [hgoal]; exact List.mem_cons_self _ _,
            c :: x, y, by rw [hxy]; rfl⟩
        · exact ⟨seg, by rw [hgoal]; exact List.mem_cons_of_mem _ hmem, x, y, hxy⟩

/-! ## `mapOption` -/

theorem mapOption_isSome_iff {α β : Type} {f : α → Option β} {l : List α} :
    (mapOption f l).isSome = true ↔ ∀ a ∈ l, (f a).isSome = true := by
  induction l with
  | nil => simp [mapOption]
  | cons a r ih =>
    rw [mapOption]
    cases hfa : f a with
    | none => simp [hfa]
    | some b => simp [hfa, ih, List.forall_mem_cons]

theorem mapOption_eq_some_iff {α β : Type} {f : α → Option β} {l : List α}
    {bs : List β} :
    mapOption f l = some bs ↔ List.Forall₂ (fun a b => f a = some b) l bs := by
  induction l generalizing bs with
  | nil =>
    rw [mapOption]
    constructor
    · intro h
      cases h
      exact List.Forall₂.nil
    · intro h
      cases h
      rfl
  | cons a r ih =>
    rw [mapOption]
    constructor
    · intro h
      cases hfa : f a with
      | none => rw [hfa] at h; simp at h
      | some b =>
        rw [hfa] at h
        simp only [Option.some_bind] at h
        cases hmr : mapOption f r with
        | none => rw [hmr] at h; simp at h
        | some bs' =>
          rw [hmr] at h
          simp only [Option.map_some'] at h
          cases h
          exact List.Forall₂.cons hfa (ih.mp hmr)
    · intro h
      cases h with
      | cons hab hrest =>
        rw [hab, Option.some_bind, ih.mpr hrest, Option.map_some']

theorem mapOption_map_id {α γ : Type} {f : γ → Option α} {g : α → γ}
    {l : List α} (h : ∀ a ∈ l, f (g a) = some a) :
    mapOption f (l.map g) = some l := by
  induction l with
  | nil => rfl
  | cons a r ih =>
    rw [List.map_cons, mapOption, h a (List.mem_cons_self a r),
      Option.some_bind, ih (fun x hx => h x (List.mem_cons_of_mem a hx)),
      Option.map_some']

theorem mapOption_exists_map {α β : Type} {f : α → Option β} {g : β → α}
    {l : List α} (h : ∀ a ∈ l, ∃ b, f a = some b ∧ g b = a) :
    ∃ bs, mapOption f l = some bs ∧ bs.map g = l := by
  induction l with
  | nil => exact ⟨[], rfl, rfl⟩
  | cons a r ih =>
    obtain ⟨b, hfb, hgb⟩ := h a (List.mem_cons_self a r)
    obtain ⟨bs, hbs, hmap⟩ := ih (fun x hx => h x (List.mem_cons_of_mem a hx))
    refine ⟨b :: bs, ?_, ?_⟩
    · rw [mapOption, hfb, Option.some_bind, hbs, Option.map_some']
    · rw [List.map_cons, hgb, hmap]

/-! ## `bracketSeq` shape facts -/

theorem bracketSeq_nil : bracketSeq [] = [] := rfl

theorem bracketSeq_cons (d : Chars) (ds : List Chars) :
    bracketSeq (d :: ds) = '[' :: (d ++ ']' :: bracketSeq ds) := by
  simp [bracketSeq]

theorem bracket_slices (nmc mid rest : Chars) :
    ((nmc ++ '[' :: (mid ++ ']' :: rest)).drop (nmc.length + 1)).take
        (nmc.length + 1 + mid.length - (nmc.length + 1)) = mid ∧
      (nmc ++ '[' :: (mid ++ ']' :: rest)).drop
        (nmc.length + 1 + mid.length + 1) = rest ∧
      (nmc ++ '[' :: (mid ++ ']' :: rest)).take nmc.length = nmc := by
  refine ⟨?_, ?_, ?_⟩
  · have hsh : nmc ++ '[' :: (mid ++ ']' :: rest) =
        (nmc ++ ['[']) ++ (mid ++ ']' :: rest) := by simp
    rw [hsh, List.drop_left' (by simp), Nat.add_sub_cancel_left,
      List.take_left' rfl]
  · have hsh : nmc ++ '[' :: (mid ++ ']' :: rest) =
        (nmc ++ '[' :: mid ++ [']']) ++ rest := by simp
    rw [hsh, List.drop_left' (by simp; omega)]
  · have hsh : nmc ++ '[' :: (mid ++ ']' :: rest) =
        nmc ++ ('[' :: (mid ++ ']' :: rest)) := rfl
    rw [hsh, List.take_left' rfl]

theorem bracket_finds {nmc mid : Chars} (rest : Chars)
    (h1 : '[' ∉ nmc) (h2 : ']' ∉ nmc) (h4 : ']' ∉ mid) :
    findChar '[' (nmc ++ '[' :: (mid ++ ']' :: rest)) = some nmc.length ∧
      findChar ']' (nmc ++ '[' :: (mid ++ ']' :: rest)) =
        some (nmc.length + 1 + mid.length) := by
  constructor
  · exact findChar_append_not_mem h1
  · have hsh : nmc ++ '[' :: (mid ++ ']' :: rest) =
        (nmc ++ '[' :: mid) ++ ']' :: rest := by simp
    rw [hsh]
    have := @findChar_append_not_mem ']' (nmc ++ '[' :: mid) rest (by
        rw [List.mem_append, List.mem_cons]
        rintro (h | h | h)
        · exact h2 h
        · exact absurd h (by decide)
        · exact h4 h)
    simpa [Nat.add_comm, Nat.add_assoc, Nat.add_left_comm] using this

theorem rem_decomp_of_find {rem : Chars} {o c : Nat}
    (hop : findChar '[' rem = some o) (hcl : findChar ']' rem = some c)
    (hoc : o < c) :
    ∃ nmc mid rest, rem = nmc ++ '[' :: (mid ++ ']' :: rest) ∧
      nmc.length = o ∧ '[' ∉ nmc ∧ ']' ∉ nmc ∧ ']' ∉ mid ∧
      c = o + 1 + mid.length := by
  obtain ⟨A, B, hAB, hAlen, hAmem⟩ := findChar_eq_some.mp hop
  obtain ⟨E, G, hEG, hElen, hEmem⟩ := findChar_eq_some.mp hcl
  have heq : A ++ '[' :: B = E ++ ']' :: G := hAB ▸ hEG
  rcases List.append_eq_append_iff.mp heq with ⟨a', hE, hB⟩ | ⟨c', hA, hG⟩
  · cases a' with
    | nil =>
      rw [hE] at hElen
      simp at hElen
      omega
    | cons y a'' =>
      rw [List.cons_append, List.cons.injEq] at hB
      obtain ⟨rfl, hB'⟩ := hB
      have hEsh : E = A ++ '[' :: a'' := hE
      have hmem : ']' ∉ a'' := fun h =>
        hEmem (hEsh ▸ List.mem_append.mpr (Or.inr (List.mem_cons_of_mem _ h)))
      refine ⟨A, a'', G, ?_, hAlen, hAmem, fun h =>
        hEmem (hEsh ▸ List.mem_append.mpr (Or.inl h)), hmem, ?_⟩
      · rw [hAB, hB']
      · have : E.length = A.length + 1 + a''.length := by
          rw [hEsh]
          simp
          omega
        omega
  · have : A.length = E.length + c'.length := by rw [hA]; simp
    omega

/-! ## Soundness of the element-parsing loop -/

theorem elemLoopF_some_sound :
    ∀ fuel rem nmc acc out, rem.length < fuel →
      elemLoopF fuel rem (some nmc) acc = some out →
      ∃ ds, rem = bracketSeq ds ∧ (∀ d ∈ ds, u32LitB d = true) ∧
        out = (some nmc, acc ++ ds.map litVal) := by
  intro fuel
  induction fuel with
  | zero =>
    intro rem nmc acc out h
    omega
  | succ fuel ih =>
    intro rem nmc acc out hlen hrun
    cases rem with
    | nil =>
      rw [elemLoopF] at hrun
      cases hrun
      exact ⟨[], rfl, by simp, by simp [bracketSeq]⟩
    | cons x r =>
      rw [elemLoopF] at hrun
      cases hop : findChar '[' (x :: r) with
      | none =>
        cases hcl : findChar ']' (x :: r) with
        | none => simp [hop, hcl] at hrun
        | some c => simp [hop, hcl] at hrun
      | some o =>
        cases hcl : findChar ']' (x :: r) with
        | none => simp [hop, hcl] at hrun
        | some c =>
          simp only [hop, hcl] at hrun
          by_cases hco : c ≤ o
          · rw [if_pos hco] at hrun
            exact absurd hrun (by simp)
          · rw [if_neg hco] at hrun
            by_cases ho : 0 < o
            · rw [if_pos ho] at hrun
              exact absurd hrun (by simp)
            · rw [if_neg ho] at hrun
              have ho0 : o = 0 := by omega
              subst ho0
              obtain ⟨nmc', mid, rest, hsh, hlen0, -, -, hmidr, hc⟩ :=
                rem_decomp_of_find hop hcl (by omega)
              have hnil : nmc' = [] := List.eq_nil_of_length_eq_zero hlen0
              subst hnil
              rw [List.nil_append] at hsh
              obtain ⟨hslice, hdrop, -⟩ := bracket_slices [] mid rest
              rw [List.nil_append] at hslice hdrop
              simp only [List.length_nil] at hslice hdrop
              rw [hsh] at hrun hlen ⊢
              rw [hc] at hrun
              simp only [Nat.zero_add] at hrun hslice hdrop
              rw [hslice] at hrun
              cases hpu : parseU32 mid with
              | none =>
                rw [hpu] at hrun
                exact absurd hrun (by simp)
              | some v =>
                rw [hpu] at hrun
                simp only [] at hrun
                rw [hdrop] at hrun
                have hresti : rest.length < fuel := by
                  have : (('[' : Char) :: (mid ++ ']' :: rest)).length =
                      mid.length + rest.length + 2 := by simp; omega
                  omega
                obtain ⟨ds', hds', hval', hout'⟩ := ih rest nmc (acc ++ [v]) out hresti hrun
                have hu : u32LitB mid = true := by
                  rw [← parseU32_isSome_iff, hpu]
                  rfl
                have hv : v = litVal mid := by
                  have := parseU32_eq_some_iff.mp hpu
                  exact this.2.2.1.symm
                refine ⟨mid :: ds', ?_, ?_, ?_⟩
                · rw [bracketSeq_cons, hds']
                · intro d hd
                  rcases List.mem_cons.mp hd with rfl | hd
                  · exact hu
                  · exact hval' d hd
                · rw [hout', hv]
                  simp

theorem elemLoopF_none_sound :
    ∀ fuel rem out, rem.length < fuel →
      elemLoopF fuel rem none [] = some out →
      (rem = [] ∧ out = (none, [])) ∨
        ('[' ∉ rem ∧ ']' ∉ rem ∧ out = (some rem, [])) ∨
        (∃ nmc ds, rem = nmc ++ bracketSeq ds ∧ '[' ∉ nmc ∧ ']' ∉ nmc ∧
          nmc ≠ [] ∧ ds ≠ [] ∧ (∀ d ∈ ds, u32LitB d = true) ∧
          out = (some nmc, ds.map litVal)) := by
  intro fuel rem out hlen hrun
  cases fuel with
  | zero => omega
  | succ fuel =>
    cases rem with
    | nil =>
      rw [elemLoopF] at hrun
      cases hrun
      exact Or.inl ⟨rfl, rfl⟩
    | cons x r =>
      rw [elemLoopF] at hrun
      cases hop : findChar '[' (x :: r) with
      | none =>
        cases hcl : findChar ']' (x :: r) with
        | none =>
          simp only [hop, hcl, Option.isSome_none, Bool.false_eq_true,
            if_false] at hrun
          cases hrun
          exact Or.inr (Or.inl ⟨findChar_eq_none.mp hop,
            findChar_eq_none.mp hcl, rfl⟩)
        | some c => simp [hop, hcl] at hrun
      | some o =>
        cases hcl : findChar ']' (x :: r) with
        | none => simp [hop, hcl] at hrun
        | some c =>
          simp only [hop, hcl] at hrun
          by_cases hco : c ≤ o
          · rw [if_pos hco] at hrun
            exact absurd hrun (by simp)
          · rw [if_neg hco] at hrun
            by_cases ho : 0 < o
            · rw [if_pos ho] at hrun
              obtain ⟨nmc, mid, rest, hsh, hleno, hnm1, hnm2, hmidr, hc⟩ :=
                rem_decomp_of_find hop hcl (by omega)
              obtain ⟨hslice, hdrop, htake⟩ := bracket_slices nmc mid rest
              rw [hsh] at hrun hlen ⊢
              rw [hleno] at hslice hdrop htake
              rw [hc] at hrun
              rw [hslice] at hrun
              cases hpu : parseU32 mid with
              | none =>
                rw [hpu] at hrun
                exact absurd hrun (by simp)
              | some v =>
                rw [hpu] at hrun
                simp only [] at hrun
                rw [hdrop, htake] at hrun
                have hresti : rest.length < fuel := by
                  have : (nmc ++ '[' :: (mid ++ ']' :: rest)).length =
                      nmc.length + mid.length + rest.length + 2 := by
                    simp
                    omega
                  omega
                obtain ⟨ds', hds', hval', hout'⟩ :=
                  elemLoopF_some_sound fuel rest nmc [v] out hresti hrun
                have hu : u32LitB mid = true := by
                  rw [← parseU32_isSome_iff, hpu]
                  rfl
                have hv : v = litVal mid := by
                  have := parseU32_eq_some_iff.mp hpu
                  exact this.2.2.1.symm
                refine Or.inr (Or.inr ⟨nmc, mid :: ds', ?_, hnm1, hnm2, ?_,
                  by simp, ?_, ?_⟩)
                · rw [bracketSeq_cons, hds']
                · intro h
                  rw [h] at hleno
                  simp at hleno
                  omega
                · intro d hd
                  rcases List.mem_cons.mp hd with rfl | hd
                  · exact hu
                  · exact hval' d hd
                · rw [hout', hv]
                  simp
            · rw [if_neg ho] at hrun
              exact absurd hrun (by simp)

/-! ## Completeness of the element-parsing loop -/

theorem elemLoopF_bracketSeq :
    ∀ fuel ds nmc acc, (bracketSeq ds).length < fuel →
      (∀ d ∈ ds, u32LitB d = true) →
      elemLoopF fuel (bracketSeq ds) (some nmc) acc =
        some (some nmc, acc ++ ds.map litVal) := by
  intro fuel
  induction fuel with
  | zero =>
    intro ds nmc acc h
    omega
  | succ fuel ih =>
    intro ds nmc acc hlen hval
    cases ds with
    | nil =>
      rw [bracketSeq_nil, elemLoopF]
      simp
    | cons d ds' =>
      have hd := hval d (List.mem_cons_self d ds')
      obtain ⟨hdl, hdr, -⟩ := u32LitB_chars hd
      rw [bracketSeq_cons] at hlen ⊢
      obtain ⟨hop, hcl⟩ := @bracket_finds [] d (bracketSeq ds')
        (by simp) (by simp) hdr
      obtain ⟨hslice, hdrop, -⟩ := bracket_slices [] d (bracketSeq ds')
      rw [List.nil_append] at hop hcl hslice hdrop
      simp only [List.length_nil, Nat.zero_add] at hop hcl hslice hdrop
      rw [elemLoopF]
      simp only [hop, hcl, Nat.zero_add]
      rw [if_neg (by omega), if_neg (by omega)]
      rw [hslice]
      simp only [u32LitB_iff_parse.mp hd]
      rw [hdrop]
      have hlen' : (bracketSeq ds').length < fuel := by
        simp only [List.length_cons, List.length_append] at hlen
        omega
      rw [ih ds' nmc (acc ++ [litVal d]) hlen'
        (fun x hx => hval x (List.mem_cons_of_mem d hx))]
      simp

theorem elementFromStr_name {s : Chars} (h1 : '[' ∉ s) (h2 : ']' ∉ s) :
    elementFromStr s = some (.name s) := by
  unfold elementFromStr
  cases s with
  | nil => rfl
  | cons x r =>
    rw [elemLoopF, findChar_eq_none.mpr h1, findChar_eq_none.mpr h2]
    simp

theorem elementFromStr_indexed {nmc : Chars} {ds : List Chars}
    (h1 : '[' ∉ nmc) (h2 : ']' ∉ nmc) (hne : nmc ≠ []) (hds : ds ≠ [])
    (hval : ∀ d ∈ ds, u32LitB d = true) :
    elementFromStr (nmc ++ bracketSeq ds) =
      some (.indexedField nmc (ds.map litVal)) := by
  cases ds with
  | nil => exact absurd rfl hds
  | cons d ds' =>
    have hd := hval d (List.mem_cons_self d ds')
    obtain ⟨hdl, hdr, -⟩ := u32LitB_chars hd
    obtain ⟨hop, hcl⟩ := bracket_finds (bracketSeq ds') h1 h2 hdr
    obtain ⟨hslice, hdrop, htake⟩ := bracket_slices nmc d (bracketSeq ds')
    cases nmc with
    | nil => exact absurd rfl hne
    | cons a nr =>
      rw [bracketSeq_cons]
      rw [List.cons_append] at hop hcl hslice hdrop htake ⊢
      unfold elementFromStr
      rw [elemLoopF]
      simp only [hop, hcl]
      rw [if_neg (by simp only [List.length_cons]; omega),
        if_pos (by simp only [List.length_cons]; omega)]
      rw [hslice]
      simp only [u32LitB_iff_parse.mp hd]
      rw [hdrop, htake]
      have hlen' : (bracketSeq ds').length <
          (a :: (nr ++ '[' :: (d ++ ']' :: bracketSeq ds'))).length := by
        simp
        omega
      rw [show ([] : List Nat) ++ [litVal d] = [litVal d] from rfl]
      rw [elemLoopF_bracketSeq _ ds' (a :: nr) [litVal d] hlen'
        (fun x hx => hval x (List.mem_cons_of_mem d hx))]
      simp

theorem elementFromStr_some_cases {s : Chars} {e : Element}
    (h : elementFromStr s = some e) :
    ('[' ∉ s ∧ ']' ∉ s ∧ e = .name s) ∨
      (∃ nmc ds, s = nmc ++ bracketSeq ds ∧ '[' ∉ nmc ∧ ']' ∉ nmc ∧
        nmc ≠ [] ∧ ds ≠ [] ∧ (∀ d ∈ ds, u32LitB d = true) ∧
        e = .indexedField nmc (ds.map litVal)) := by
  unfold elementFromStr at h
  cases hrun : elemLoopF (s.length + 1) s none [] with
  | none =>
    rw [hrun] at h
    exact absurd h (by simp)
  | some out =>
    rw [hrun] at h
    obtain ⟨nm, ixs⟩ := out
    rcases elemLoopF_none_sound (s.length + 1) s (nm, ixs) (by omega) hrun with
      ⟨rfl, hout⟩ | ⟨h1, h2, hout⟩ | ⟨nmc, ds, hsh, h1, h2, hne, hds, hval, hout⟩
    · rw [Prod.mk.injEq] at hout
      obtain ⟨rfl, rfl⟩ := hout
      cases h
      exact Or.inl ⟨by simp, by simp, rfl⟩
    · rw [Prod.mk.injEq] at hout
      obtain ⟨rfl, rfl⟩ := hout
      cases h
      exact Or.inl ⟨h1, h2, rfl⟩
    · rw [Prod.mk.injEq] at hout
      obtain ⟨rfl, rfl⟩ := hout
      cases ds with
      | nil => exact absurd rfl hds
      | cons d ds' =>
        rw [List.map_cons] at h
        cases h
        exact Or.inr ⟨nmc, d :: ds', hsh, h1, h2, hne, hds, hval, by
          rw [List.map_cons]⟩

/-! ## First-occurrence uniqueness -/

theorem append_first_eq {x : Char} {a b a' b' : Chars}
    (h : a ++ x :: b = a' ++ x :: b') (ha : x ∉ a) (ha' : x ∉ a') :
    a = a' ∧ b = b' := by
  induction a generalizing a' with
  | nil =>
    cases a' with
    | nil => simpa using h
    | cons y t =>
      rw [List.nil_append, List.cons_append, List.cons.injEq] at h
      exact absurd (h.1 ▸ List.mem_cons_self _ _) ha'
  | cons z t ih =>
    cases a' with
    | nil =>
      rw [List.nil_append, List.cons_append, List.cons.injEq] at h
      exact absurd (h.1.symm ▸ List.mem_cons_self _ _) ha
    | cons y u =>
      rw [List.cons_append, List.cons_append, List.cons.injEq] at h
      obtain ⟨rfl, h2⟩ := h
      obtain ⟨rfl, rfl⟩ := ih h2 (fun hm => ha (List.mem_cons_of_mem _ hm))
        (fun hm => ha' (List.mem_cons_of_mem _ hm))
      exact ⟨rfl, rfl⟩

/-! ## The boolean segment grammar matches the parser -/

theorem bracketBlocksF_sound :
    ∀ fuel t, t.length < fuel → bracketBlocksF u32LitB fuel t = true →
      ∃ ds, t = bracketSeq ds ∧ ∀ d ∈ ds, u32LitB d = true := by
  intro fuel
  induction fuel with
  | zero =>
    intro t h
    omega
  | succ fuel ih =>
    intro t hlen hrun
    cases t with
    | nil => exact ⟨[], rfl, by simp⟩
    | cons c r =>
      rw [bracketBlocksF] at hrun
      split_ifs at hrun with hc
      · subst hc
        cases hcl : findChar ']' r with
        | none => rw [hcl] at hrun; simp at hrun
        | some i =>
          rw [hcl] at hrun
          simp only [Bool.and_eq_true] at hrun
          obtain ⟨E, G, rfl, rfl, hEmem⟩ := findChar_eq_some.mp hcl
          rw [List.take_left] at hrun
          have hdg : (E ++ ']' :: G).drop (E.length + 1) = G := by
            have : E ++ ']' :: G = (E ++ [']']) ++ G := by simp
            rw [this, List.drop_left' (by simp)]
          rw [hdg] at hrun
          have hglen : G.length < fuel := by
            simp only [List.length_cons, List.length_append] at hlen
            omega
          obtain ⟨ds', hds', hval'⟩ := ih G hglen hrun.2
          refine ⟨E :: ds', ?_, ?_⟩
          · rw [bracketSeq_cons, hds']
          · intro d hd
            rcases List.mem_cons.mp hd with rfl | hd
            · exact hrun.1
            · exact hval' d hd

theorem bracketBlocksF_complete :
    ∀ ds fuel, (bracketSeq ds).length < fuel →
      (∀ d ∈ ds, u32LitB d = true) →
      bracketBlocksF u32LitB fuel (bracketSeq ds) = true := by
  intro ds
  induction ds with
  | nil =>
    intro fuel hlen _
    cases fuel with
    | zero => omega
    | succ fuel => rfl
  | cons d ds' ih =>
    intro fuel hlen hval
    have hd := hval d (List.mem_cons_self d ds')
    obtain ⟨-, hdr, -⟩ := u32LitB_chars hd
    rw [bracketSeq_cons] at hlen ⊢
    cases fuel with
    | zero => omega
    | succ fuel =>
      rw [bracketBlocksF, if_pos rfl]
      simp only [findChar_append_not_mem hdr]
      have hdg : (d ++ ']' :: bracketSeq ds').drop (d.length + 1) =
          bracketSeq ds' := by
        have : d ++ ']' :: bracketSeq ds' = (d ++ [']']) ++ bracketSeq ds' := by
          simp
        rw [this, List.drop_left' (by simp)]
      rw [List.take_left, hdg, hd, ih fuel (by simp at hlen ⊢; omega)
        (fun x hx => hval x (List.mem_cons_of_mem d hx))]
      rfl

theorem segOkB_eq_none {s : Chars} (h : findChar '[' s = none) :
    segOkB s = !decide (']' ∈ s) := by
  unfold segOkB
  rw [h]

theorem segOkB_eq_some {s : Chars} {o : Nat} (h : findChar '[' s = some o) :
    segOkB s =
      (!decide (']' ∈ s.take o) && decide (0 < o) &&
        bracketBlocksF u32LitB ((s.drop o).length + 1) (s.drop o)) := by
  unfold segOkB
  rw [h]

theorem segOkB_iff (s : Chars) :
    segOkB s = true ↔
      ('[' ∉ s ∧ ']' ∉ s) ∨
        (∃ nmc ds, s = nmc ++ bracketSeq ds ∧ '[' ∉ nmc ∧ ']' ∉ nmc ∧
          nmc ≠ [] ∧ ds ≠ [] ∧ ∀ d ∈ ds, u32LitB d = true) := by
  cases hop : findChar '[' s with
  | none =>
    have h1 : '[' ∉ s := findChar_eq_none.mp hop
    rw [segOkB_eq_none hop]
    simp only [Bool.not_eq_true', decide_eq_false_iff_not]
    constructor
    · intro h
      exact Or.inl ⟨h1, h⟩
    · rintro (⟨-, h⟩ | ⟨nmc, ds, hsh, -, -, -, hds, -⟩)
      · exact h
      · exfalso
        cases ds with
        | nil => exact hds rfl
        | cons d ds' =>
          refine h1 (hsh ▸ ?_)
          rw [bracketSeq_cons]
          exact List.mem_append.mpr (Or.inr (List.mem_cons_self _ _))
  | some o =>
    rw [segOkB_eq_some hop]
    obtain ⟨A, B, rfl, rfl, hAmem⟩ := findChar_eq_some.mp hop
    rw [List.take_left' rfl, List.drop_left]
    simp only [Bool.and_eq_true, Bool.not_eq_true', decide_eq_false_iff_not,
      decide_eq_true_eq]
    constructor
    · rintro ⟨⟨hA, hAl⟩, hbl⟩
      obtain ⟨ds, hds, hval⟩ := bracketBlocksF_sound (('[' :: B).length + 1)
        ('[' :: B) (by omega) hbl
      refine Or.inr ⟨A, ds, by rw [hds], hAmem, hA, ?_, ?_, hval⟩
      · intro h
        rw [h] at hAl
        simp at hAl
      · intro h
        rw [h] at hds
        exact absurd hds.symm (by simp [bracketSeq])
    · rintro (⟨h1, -⟩ | ⟨nmc, ds, hsh, hn1, hn2, hne, hds, hval⟩)
      · exact absurd (List.mem_append.mpr (Or.inr (List.mem_cons_self _ _))) h1
      · cases ds with
        | nil => exact absurd rfl hds
        | cons d ds' =>
          rw [bracketSeq_cons] at hsh
          obtain ⟨rfl, rfl⟩ := append_first_eq hsh hAmem hn1
          refine ⟨⟨hn2, ?_⟩, ?_⟩
          · exact List.length_pos.mpr hne
          · rw [← bracketSeq_cons]
            exact bracketBlocksF_complete (d :: ds') _ (by omega) hval

theorem elementFromStr_isSome_iff (s : Chars) :
    (elementFromStr s).isSome = segOkB s := by
  rw [Bool.eq_iff_iff]
  constructor
  · intro h
    obtain ⟨e, he⟩ := Option.isSome_iff_exists.mp h
    rcases elementFromStr_some_cases he with
      ⟨h1, h2, -⟩ | ⟨nmc, ds, hsh, h1, h2, hne, hds, hval, -⟩
    · exact (segOkB_iff s).mpr (Or.inl ⟨h1, h2⟩)
    · exact (segOkB_iff s).mpr (Or.inr ⟨nmc, ds, hsh, h1, h2, hne, hds, hval⟩)
  · intro h
    rcases (segOkB_iff s).mp h with
      ⟨h1, h2⟩ | ⟨nmc, ds, hsh, h1, h2, hne, hds, hval⟩
    · rw [elementFromStr_name h1 h2]
      rfl
    · rw [hsh, elementFromStr_indexed h1 h2 hne hds hval]
      rfl

theorem pathFromStr_isSome_iff (s : Chars) :
    (pathFromStr s).isSome = (splitDot s).all segOkB := by
  unfold pathFromStr
  rw [Bool.eq_iff_iff]
  cases hmo : mapOption elementFromStr (splitDot s) with
  | none =>
    simp only [Option.map_none', Option.isSome_none, Bool.false_eq_true,
      false_iff]
    intro hall
    have : (mapOption elementFromStr (splitDot s)).isSome = true := by
      rw [mapOption_isSome_iff]
      intro seg hseg
      rw [elementFromStr_isSome_iff]
      exact List.all_eq_true.mp hall seg hseg
    rw [hmo] at this
    exact absurd this (by simp)
  | some es =>
    simp only [Option.map_some', Option.isSome_some, true_iff]
    rw [List.all_eq_true]
    intro seg hseg
    rw [← elementFromStr_isSome_iff]
    have : (mapOption elementFromStr (splitDot s)).isSome = true := by
      rw [hmo]
      rfl
    exact mapOption_isSome_iff.mp this seg hseg

/-! ## Canonical shape of parsed elements, and the render round trip -/

theorem elemCanon_of_parse {s : Chars} {e : Element} (hdot : '.' ∉ s)
    (h : elementFromStr s = some e) : ElemCanon e := by
  rcases elementFromStr_some_cases h with
    ⟨h1, h2, rfl⟩ | ⟨nmc, ds, rfl, h1, h2, hne, hds, hval, rfl⟩
  · exact ⟨h1, h2, hdot⟩
  · refine ⟨⟨h1, h2, fun hm => hdot (List.mem_append.mpr (Or.inl hm))⟩,
      hne, ?_, ?_⟩
    · simpa using hds
    · intro i hi
      obtain ⟨d, hd, rfl⟩ := List.mem_map.mp hi
      exact litVal_lt (hval d hd)

theorem flatMap_renderIndex (ixs : List Nat) :
    ixs.flatMap renderIndex = bracketSeq (ixs.map natDigits) := by
  induction ixs with
  | nil => rfl
  | cons i r ih =>
    rw [List.flatMap_cons, List.map_cons, bracketSeq_cons, ih, renderIndex]
    simp

theorem map_litVal_natDigits (ixs : List Nat) :
    (ixs.map natDigits).map litVal = ixs := by
  rw [List.map_map]
  have : ∀ i ∈ ixs, (litVal ∘ natDigits) i = id i := by
    intro i _
    exact litVal_natDigits i
  rw [List.map_congr_left this, List.map_id]

theorem elemCanon_render_parse {e : Element} (h : ElemCanon e) :
    elementFromStr (renderElement e) = some e := by
  cases e with
  | name n => exact elementFromStr_name h.1 h.2.1
  | indexedField n ixs =>
    obtain ⟨⟨h1, h2, -⟩, hne, hixs, hlt⟩ := h
    rw [renderElement, flatMap_renderIndex]
    rw [elementFromStr_indexed h1 h2 hne (by simpa using hixs)
      (fun d hd => by
        obtain ⟨i, hi, rfl⟩ := List.mem_map.mp hd
        exact u32LitB_natDigits (hlt i hi))]
    rw [map_litVal_natDigits]

theorem renderElement_no_dot {e : Element} (h : ElemCanon e) :
    '.' ∉ renderElement e := by
  cases e with
  | name n => exact h.2.2
  | indexedField n ixs =>
    obtain ⟨⟨-, -, h3⟩, -⟩ := h
    rw [renderElement]
    intro hm
    rcases List.mem_append.mp hm with hm | hm
    · exact h3 hm
    · obtain ⟨i, hi, hmem⟩ := List.mem_flatMap.mp hm
      rw [renderIndex] at hmem
      rcases List.mem_cons.mp hmem with h' | h'
      · exact absurd h' (by decide)
      · rcases List.mem_append.mp h' with h' | h'
        · exact absurd (natDigits_isDigit h') (by decide)
        · rw [List.mem_singleton] at h'
          exact absurd h' (by decide)

theorem forall₂_mem_right {α β : Type} {R : α → β → Prop} :
    ∀ {l1 : List α} {l2 : List β}, List.Forall₂ R l1 l2 →
      ∀ b ∈ l2, ∃ a ∈ l1, R a b := by
  intro l1 l2 h
  induction h with
  | nil => simp
  | cons hR hrest ih =>
    intro b hb
    rcases List.mem_cons.mp hb with rfl | hb
    · exact ⟨_, List.mem_cons_self _ _, hR⟩
    · obtain ⟨a, ha, hr⟩ := ih b hb
      exact ⟨a, List.mem_cons_of_mem _ ha, hr⟩

theorem pathFromStr_decomp {s : Chars} {p : Path} (h : pathFromStr s = some p) :
    ∃ es, mapOption elementFromStr (splitDot s) = some es ∧ p = ⟨es⟩ := by
  unfold pathFromStr at h
  cases hmo : mapOption elementFromStr (splitDot s) with
  | none =>
    rw [hmo] at h
    exact absurd h (by simp)
  | some es =>
    rw [hmo] at h
    simp only [Option.map_some', Option.some.injEq] at h
    exact ⟨es, rfl, h.symm⟩

theorem pathFromStr_canon {s : Chars} {p : Path} (h : pathFromStr s = some p) :
    ∀ e ∈ p.path, ElemCanon e := by
  obtain ⟨es, hes, rfl⟩ := pathFromStr_decomp h
  intro e he
  obtain ⟨seg, hseg, hparse⟩ :=
    forall₂_mem_right (mapOption_eq_some_iff.mp hes) e he
  exact elemCanon_of_parse (splitDot_no_dot seg hseg) hparse

theorem pathFromStr_render {s : Chars} {p : Path} (h : pathFromStr s = some p) :
    pathFromStr (renderPath p) = some p := by
  have hcanon := pathFromStr_canon h
  obtain ⟨es, hes, rfl⟩ := pathFromStr_decomp h
  have hne : es ≠ [] := by
    intro hnil
    subst hnil
    have := (mapOption_eq_some_iff.mp hes).length_eq
    simp at this
    exact splitDot_ne_nil s this
  show pathFromStr (joinDot (List.map renderElement es)) = some ⟨es⟩
  unfold pathFromStr
  rw [splitDot_joinDot (es.map renderElement) (by simpa using hne)
    (fun x hx => by
      obtain ⟨e, he, rfl⟩ := List.mem_map.mp hx
      exact renderElement_no_dot (hcanon e he))]
  rw [mapOption_map_id (fun e he => elemCanon_render_parse (hcanon e he))]
  rfl

theorem canonSeg_render {s : Chars} (hcs : ∀ seg ∈ splitDot s, CanonSeg seg) :
    ∃ p, pathFromStr s = some p ∧ renderPath p = s := by
  have hseg : ∀ seg ∈ splitDot s,
      ∃ e, elementFromStr seg = some e ∧ renderElement e = seg := by
    intro seg hs
    obtain ⟨nm, ixs, rfl, h1, h2, hne, hlt⟩ := hcs seg hs
    cases ixs with
    | nil =>
      rw [show bracketSeq (List.map natDigits []) = [] from rfl,
        List.append_nil]
      exact ⟨.name nm, elementFromStr_name h1 h2, rfl⟩
    | cons i ir =>
      refine ⟨.indexedField nm (i :: ir), ?_, ?_⟩
      · rw [elementFromStr_indexed h1 h2 (hne (by simp)) (by simp)
          (fun d hd => by
            obtain ⟨j, hj, rfl⟩ := List.mem_map.mp hd
            exact u32LitB_natDigits (hlt j hj))]
        rw [map_litVal_natDigits]
      · rw [renderElement, flatMap_renderIndex]
  obtain ⟨es, hes, hmap⟩ := mapOption_exists_map hseg
  refine ⟨⟨es⟩, by unfold pathFromStr; rw [hes]; rfl, ?_⟩
  show joinDot (List.map renderElement es) = s
  rw [hmap, joinDot_splitDot]

/-! ## A bracket whose contents exceed the 32-bit bound defeats parsing -/

theorem bracketSeq_loc :
    ∀ ds x t, (∀ d ∈ ds, u32LitB d = true) →
      bracketSeq ds = x ++ '[' :: t →
      ∃ d rest, d ∈ ds ∧ t = d ++ ']' :: rest := by
  intro ds
  induction ds with
  | nil =>
    intro x t _ h
    exact absurd h (by simp [bracketSeq])
  | cons d ds' ih =>
    intro x t hval h
    rw [bracketSeq_cons] at h
    cases x with
    | nil =>
      rw [List.nil_append, List.cons.injEq] at h
      exact ⟨d, bracketSeq ds', List.mem_cons_self _ _, h.2.symm⟩
    | cons y x' =>
      rw [List.cons_append, List.cons.injEq] at h
      obtain ⟨-, h2⟩ := h
      rcases List.append_eq_append_iff.mp h2 with ⟨a', hx', ha'⟩ | ⟨c', hd', hc'⟩
      · cases a' with
        | nil =>
          rw [List.nil_append] at ha'
          rw [List.cons.injEq] at ha'
          exact absurd ha'.1 (by decide)
        | cons z a'' =>
          rw [List.cons_append, List.cons.injEq] at ha'
          obtain ⟨-, ha''⟩ := ha'
          obtain ⟨d0, rest, hd0, ht⟩ :=
            ih a'' t (fun q hq => hval q (List.mem_cons_of_mem d hq)) ha''
          exact ⟨d0, rest, List.mem_cons_of_mem d hd0, ht⟩
      · cases c' with
        | nil =>
          rw [List.nil_append] at hc'
          rw [List.cons.injEq] at hc'
          exact absurd hc'.1 (by decide)
        | cons z c'' =>
          rw [List.cons_append, List.cons.injEq] at hc'
          obtain ⟨rfl, -⟩ := hc'
          have : '[' ∈ d := hd' ▸ List.mem_append.mpr
            (Or.inr (List.mem_cons_self _ _))
          exact absurd this (u32LitB_chars (hval d (List.mem_cons_self d ds'))).1

theorem segOkB_no_big_bracket {seg x d y : Chars}
    (hsg : segOkB seg = true) (hsh : seg = x ++ '[' :: (d ++ ']' :: y))
    (hdall : ∀ c ∈ d, c.isDigit = true) :
    digitsVal d < 2 ^ 32 := by
  have hdr : ']' ∉ d := fun hm => absurd (hdall _ hm) (by decide)
  rcases (segOkB_iff seg).mp hsg with ⟨h1, -⟩ |
    ⟨nmc, ds, hdec, hn1, hn2, -, -, hval⟩
  · exact absurd (hsh ▸ List.mem_append.mpr
      (Or.inr (List.mem_cons_self _ _))) h1
  · have heq : nmc ++ bracketSeq ds = x ++ '[' :: (d ++ ']' :: y) :=
      hdec ▸ hsh
    have hext : ∃ x₂, bracketSeq ds = x₂ ++ '[' :: (d ++ ']' :: y) := by
      rcases List.append_eq_append_iff.mp heq with ⟨a', -, ha'⟩ | ⟨c', hnm, hc'⟩
      · exact ⟨a', ha'⟩
      · cases c' with
        | nil =>
          rw [List.nil_append] at hc'
          exact ⟨[], by rw [List.nil_append, ← hc']⟩
        | cons z c'' =>
          rw [List.cons_append, List.cons.injEq] at hc'
          obtain ⟨rfl, -⟩ := hc'
          exact absurd (hnm ▸ List.mem_append.mpr
            (Or.inr (List.mem_cons_self _ _))) hn1
    obtain ⟨x₂, hbs⟩ := hext
    obtain ⟨d0, rest, hd0, ht⟩ := bracketSeq_loc ds x₂ _ hval hbs
    obtain ⟨rfl, -⟩ := append_first_eq ht hdr
      (u32LitB_chars (hval d0 hd0)).2.1
    have hlt := litVal_lt (hval d hd0)
    have hsp : stripPlus d = d := by
      cases d with
      | nil => rfl
      | cons c0 r0 =>
        have : c0 ≠ '+' :=
          (isDigit_ne_special (hdall c0 (List.mem_cons_self c0 r0))).2.2.2
        simp [stripPlus, this]
    unfold litVal at hlt
    rwa [hsp] at hlt

theorem pathFromStr_big_bracket {a d b : Chars}
    (hdall : ∀ c ∈ d, c.isDigit = true) (hbig : 2 ^ 32 ≤ digitsVal d) :
    pathFromStr (a ++ '[' :: (d ++ ']' :: b)) = none := by
  cases hp : pathFromStr (a ++ '[' :: (d ++ ']' :: b)) with
  | none => rfl
  | some p =>
    exfalso
    have hall : (splitDot (a ++ '[' :: (d ++ ']' :: b))).all segOkB = true := by
      rw [← pathFromStr_isSome_iff, hp]
      rfl
    have hmnd : '.' ∉ ('[' :: (d ++ [']'])) := by
      rw [List.mem_cons]
      rintro (h | h)
      · exact absurd h (by decide)
      · rcases List.mem_append.mp h with h | h
        · exact absurd (hdall _ h) (by decide)
        · rw [List.mem_singleton] at h
          exact absurd h (by decide)
    obtain ⟨seg, hseg, x, y, hxy⟩ := exists_seg_containing hmnd a b
    have hsh2 : a ++ ('[' :: (d ++ [']'])) ++ b = a ++ '[' :: (d ++ ']' :: b) := by
      simp
    rw [hsh2] at hseg
    have hsg := List.all_eq_true.mp hall seg hseg
    have hxy2 : seg = x ++ '[' :: (d ++ ']' :: y) := by
      rw [hxy]
      simp
    have := segOkB_no_big_bracket hsg hxy2 hdall
    omega

/-! ## The fallible-formatter mirror never fails -/

theorem fmtIndexes_ok : ∀ (ixs : List Nat) (acc : Chars),
    fmtIndexes ixs acc = .ok (acc ++ ixs.flatMap renderIndex) := by
  intro ixs
  induction ixs with
  | nil =>
    intro acc
    simp [fmtIndexes]
  | cons i r ih =>
    intro acc
    show fmtIndexes r (acc ++ renderIndex i) = _
    rw [ih]
    simp

theorem fmtElement_ok (e : Element) (acc : Chars) :
    fmtElement e acc = .ok (acc ++ renderElement e) := by
  cases e with
  | name n => rfl
  | indexedField n ixs =>
    show fmtIndexes ixs (acc ++ n) = _
    rw [fmtIndexes_ok]
    simp [renderElement]

theorem joinDot_eq_flatMap (t : Chars) (rest : List Chars) :
    joinDot (t :: rest) = t ++ rest.flatMap (fun u => '.' :: u) := by
  induction rest generalizing t with
  | nil => simp [joinDot]
  | cons u us ih =>
    show t ++ '.' :: joinDot (u :: us) = _
    rw [ih u]
    simp

theorem fmtPathElems_ok : ∀ (es : List Element) (acc : Chars),
    fmtPathElems es true acc = .ok (acc ++ joinDot (es.map renderElement)) ∧
      fmtPathElems es false acc =
        .ok (acc ++ (es.map renderElement).flatMap (fun t => '.' :: t)) := by
  intro es
  induction es with
  | nil =>
    intro acc
    exact ⟨by simp [fmtPathElems, joinDot], by simp [fmtPathElems]⟩
  | cons e r ih =>
    intro acc
    constructor
    · show fmtElement e acc >>= (fun x => fmtPathElems r false x) = _
      rw [fmtElement_ok]
      show fmtPathElems r false (acc ++ renderElement e) = _
      rw [(ih _).2, List.map_cons, joinDot_eq_flatMap]
      simp
    · show wr ['.'] acc >>= (fun a => fmtElement e a >>=
        fun x => fmtPathElems r false x) = _
      show fmtElement e (acc ++ ['.']) >>= (fun x => fmtPathElems r false x) = _
      rw [fmtElement_ok]
      show fmtPathElems r false (acc ++ ['.'] ++ renderElement e) = _
      rw [(ih _).2, List.map_cons, List.flatMap_cons]
      simp

theorem fmtPath_ok (p : Path) (acc : Chars) :
    fmtPath p acc = .ok (acc ++ renderPath p) :=
  (fmtPathElems_ok p.path acc).1

theorem joinSep_eq_flatMap (sep t : Chars) (rest : List Chars) :
    joinSep sep (t :: rest) = t ++ rest.flatMap (fun u => sep ++ u) := by
  induction rest generalizing t with
  | nil => simp [joinSep]
  | cons u us ih =>
    show t ++ sep ++ joinSep sep (u :: us) = _
    rw [ih u]
    simp

theorem fmtInItems_ok : ∀ (items : List Operand) (acc : Chars),
    fmtInItems items true acc =
        .ok (acc ++ joinSep [','] (items.map renderOperandPlain)) ∧
      fmtInItems items false acc =
        .ok (acc ++ (items.map renderOperandPlain).flatMap
          (fun t => ',' :: t)) := by
  intro items
  induction items with
  | nil =>
    intro acc
    exact ⟨by simp [fmtInItems, joinSep], by simp [fmtInItems]⟩
  | cons o r ih =>
    intro acc
    constructor
    · show fmtOperand o acc >>= (fun x => fmtInItems r false x) = _
      show fmtInItems r false (acc ++ renderOperandPlain o) = _
      rw [(ih _).2, List.map_cons, joinSep_eq_flatMap]
      simp
    · show fmtOperand o (acc ++ [',']) >>= (fun x => fmtInItems r false x) = _
      show fmtInItems r false (acc ++ [','] ++ renderOperandPlain o) = _
      rw [(ih _).2, List.map_cons, List.flatMap_cons]
      simp

theorem fmtIn_ok (i : In) (acc : Chars) :
    fmtIn i acc = .ok (acc ++ renderIn i) := by
  show fmtInItems i.items true (acc ++ renderOperandPlain i.op ++
    " IN (".toList) >>= (fun x => wr [')'] x) = _
  rw [(fmtInItems_ok i.items _).1]
  show Except.ok (acc ++ renderOperandPlain i.op ++ " IN (".toList ++
    joinSep [','] (i.items.map renderOperandPlain) ++ [')']) = _
  rw [renderIn]
  simp

theorem fmtMath_ok (m : Math) (acc : Chars) :
    fmtMath m acc = .ok (acc ++ renderMath m) := by
  show fmtPath m.dst acc >>= (fun a => wr (' ' :: '=' :: [' ']) a >>=
    fun a => fmtPath (m.src.getD m.dst) a >>= fun a => wr [' '] a >>=
    fun a => wr [mathOpChar m.op] a >>= fun a => wr [' '] a >>=
    fun a => wr (renderValuePlain m.num) a) = _
  rw [fmtPath_ok]
  show fmtPath (m.src.getD m.dst) (acc ++ renderPath m.dst ++
    (' ' :: '=' :: [' '])) >>= (fun a => wr [' '] a >>=
    fun a => wr [mathOpChar m.op] a >>= fun a => wr [' '] a >>=
    fun a => wr (renderValuePlain m.num) a) = _
  rw [fmtPath_ok]
  show Except.ok (acc ++ renderPath m.dst ++ (' ' :: '=' :: [' ']) ++
    renderPath (m.src.getD m.dst) ++ [' '] ++ [mathOpChar m.op] ++ [' '] ++
    renderValuePlain m.num) = _
  rw [renderMath]
  simp

/-! ## Substitution-table allocation discipline -/

theorem findPos_eq_none {α : Type} [DecidableEq α] {x : α} {l : List α} :
    findPos x l = none ↔ x ∉ l := by
  induction l with
  | nil => simp [findPos]
  | cons a r ih =>
    rw [findPos]
    split_ifs with ha
    · subst ha
      simp
    · rw [Option.map_eq_none', List.mem_cons, ih]
      constructor
      · intro h h'
        rcases h' with rfl | h'
        · exact ha rfl
        · exact h h'
      · intro h
        exact fun h' => h (Or.inr h')

theorem nameToken_fresh {st : SubTable} {n : Chars} (h : n ∉ st.names) :
    st.nameToken n =
      (tokenChars '#' st.names.length, ⟨st.names ++ [n], st.values⟩) := by
  unfold SubTable.nameToken
  rw [findPos_eq_none.mpr h]

theorem nameToken_dup {st : SubTable} {n : Chars} {i : Nat}
    (h : findPos n st.names = some i) :
    st.nameToken n = (tokenChars '#' i, st) := by
  unfold SubTable.nameToken
  rw [h]

theorem valueToken_fresh {st : SubTable} {v : Value} (h : v ∉ st.values) :
    st.valueToken v =
      (tokenChars ':' st.values.length, ⟨st.names, st.values ++ [v]⟩) := by
  unfold SubTable.valueToken
  rw [findPos_eq_none.mpr h]

theorem valueToken_dup {st : SubTable} {v : Value} {i : Nat}
    (h : findPos v st.values = some i) :
    st.valueToken v = (tokenChars ':' i, st) := by
  unfold SubTable.valueToken
  rw [h]

/-! ## The rendered shape of `and` / `or` -/

theorem renderConditionSub_and (st : SubTable) (l r : Condition) :
    renderConditionSub st (.and l r) =
      ((renderConditionSub st l).1 ++ " AND ".toList ++
        (renderConditionSub (renderConditionSub st l).2 r).1,
       (renderConditionSub (renderConditionSub st l).2 r).2) := by
  rcases h1 : renderConditionSub st l with ⟨ls, st1⟩
  rcases h2 : renderConditionSub st1 r with ⟨rs, st2⟩
  simp only [renderConditionSub, h1, h2]

theorem renderConditionSub_or (st : SubTable) (l r : Condition) :
    renderConditionSub st (.or l r) =
      ((renderConditionSub st l).1 ++ " OR ".toList ++
        (renderConditionSub (renderConditionSub st l).2 r).1,
       (renderConditionSub (renderConditionSub st l).2 r).2) := by
  rcases h1 : renderConditionSub st l with ⟨ls, st1⟩
  rcases h2 : renderConditionSub st1 r with ⟨rs, st2⟩
  simp only [renderConditionSub, h1, h2]

/-! # Claim theorems -/

/-- C1 (counterexample): the claim's second half, `render(parse(s)) == s`
after canonicalization (where the claim's canonicalization only rules out
empty index lists, which parsing never produces), fails at the successfully
parsed text `foo[00]`: parsing accepts it and rendering the result gives
`foo[0]`, not `foo[00]`. -/
theorem c1_counterexample :
    (pathFromStr ("foo[00]".toList)).map renderPath =
        some ("foo[0]".toList) ∧
      "foo[0]".toList ≠ "foo[00]".toList := by
  exact ⟨by decide, by decide⟩

/-- C1 (amended): for every path text that parses into `p`,
`render(parse(render(p))) = render(p)`; and `render(parse(s)) = s` holds for
every text whose bracketed index literals are written canonically (digits
with no leading `+` and no leading zeros) — not for every parse-accepted
text. -/
theorem c1_round_trip :
    (∀ s p, pathFromStr s = some p →
      ∃ p', pathFromStr (renderPath p) = some p' ∧
        renderPath p' = renderPath p) ∧
      (∀ s, (∀ seg ∈ splitDot s, CanonSeg seg) →
        ∃ p, pathFromStr s = some p ∧ renderPath p = s) := by
  constructor
  · intro s p h
    exact ⟨p, pathFromStr_render h, rfl⟩
  · intro s h
    exact canonSeg_render h

/-- C1 (witness): the round-trip theorem applied at the concrete text
`foo[3].bar`. -/
theorem c1_witness :
    (∃ p', pathFromStr (renderPath (Path.mk [Element.indexedField
          ("foo".toList) [3], Element.name ("bar".toList)])) = some p' ∧
        renderPath p' = renderPath (Path.mk [Element.indexedField
          ("foo".toList) [3], Element.name ("bar".toList)])) ∧
      (∃ p, pathFromStr ("foo[3].bar".toList) = some p ∧
        renderPath p = "foo[3].bar".toList) := by
  refine ⟨c1_round_trip.1 ("foo[3].bar".toList) _ (by decide),
    c1_round_trip.2 ("foo[3].bar".toList) ?_⟩
  intro seg hseg
  have hsp : splitDot ("foo[3].bar".toList) =
      ["foo[3]".toList, "bar".toList] := by decide
  rw [hsp] at hseg
  rcases List.mem_cons.mp hseg with rfl | hseg
  · exact ⟨"foo".toList, [3], by decide, by decide, by decide,
      fun _ => by decide, by decide⟩
  · rw [List.mem_singleton] at hseg
    subst hseg
    exact ⟨"bar".toList, [], by decide, by decide, by decide,
      fun h => absurd rfl h, by decide⟩

/-- C2: compiling the test's filter `attribute_exists(name) AND age >= 2.5`
with projection `[name, age]` and key condition `id = 42` in one expression
allocates `#0=name, #1=age, #2=id` and `:0=2.5, :1=42` in first-use order
and produces exactly the three clause texts the repository test asserts;
and, in general, a fresh name or value receives the next sequential token
(so numbering starts at 0 and is strictly increasing in first-use order)
while an already-registered one reuses its token. -/
theorem c2_compile_example :
    (compileExpression (some simpleTestFilter) (some simpleTestKey)
        (some simpleTestProjection) =
      ⟨some ("attribute_exists(#0) AND #1 >= :0".toList),
       some ("#2 = :1".toList),
       some ("#0, #1".toList),
       ["name".toList, "age".toList, "id".toList],
       [.num ("2.5".toList), .num ("42".toList)]⟩) ∧
      (∀ st : SubTable, ∀ n, n ∉ st.names → st.nameToken n =
        (tokenChars '#' st.names.length, ⟨st.names ++ [n], st.values⟩)) ∧
      (∀ st : SubTable, ∀ v, v ∉ st.values → st.valueToken v =
        (tokenChars ':' st.values.length, ⟨st.names, st.values ++ [v]⟩)) ∧
      (∀ st : SubTable, ∀ n i, findPos n st.names = some i →
        st.nameToken n = (tokenChars '#' i, st)) ∧
      (∀ st : SubTable, ∀ v i, findPos v st.values = some i →
        st.valueToken v = (tokenChars ':' i, st)) :=
  ⟨by decide, fun _ _ h => nameToken_fresh h, fun _ _ h => valueToken_fresh h,
    fun _ _ _ h => nameToken_dup h, fun _ _ _ h => valueToken_dup h⟩

/-- C2 (witness): the allocation discipline applied at a concrete table —
a fresh name gets `#0` on the empty table, and a duplicate reuses `#0`. -/
theorem c2_witness :
    SubTable.empty.nameToken ("name".toList) =
        (tokenChars '#' 0, ⟨["name".toList], []⟩) ∧
      (SubTable.mk ["name".toList] []).nameToken ("name".toList) =
        (tokenChars '#' 0, SubTable.mk ["name".toList] []) := by
  refine ⟨?_, c2_compile_example.2.2.2.1 _ _ 0 (by decide)⟩
  have h := c2_compile_example.2.1 SubTable.empty ("name".toList) (by decide)
  exact h

/-- C3 (counterexample): the input `foo[4294967296]` satisfies the grammar
exactly as the claim words it (brackets balanced and in order, no name
resuming after a closing bracket, no leading bracket, bracket contents a
valid non-negative integer), yet parsing fails. -/
theorem c3_counterexample :
    pathClaimOkB ("foo[4294967296]".toList) = true ∧
      pathFromStr ("foo[4294967296]".toList) = none := by
  exact ⟨by decide, by decide⟩

/-- C3 (amended): parsing fails exactly when some dot-separated segment
violates the implemented grammar: a bracket-free name (which must be
non-empty when any index is present), each bracket holding an optionally
`+`-prefixed digit string whose value fits in an unsigned 32-bit integer.
Equivalently, parsing succeeds iff every segment passes `segOkB`. -/
theorem c3_parse_grammar (s : Chars) :
    (pathFromStr s).isSome = (splitDot s).all segOkB :=
  pathFromStr_isSome_iff s

/-- C4 (counterexample): rendering the conjunction the repository's test
compiles does not wrap the children in parentheses — the claim's
`({l}) AND ({r})` shape (stated verbatim as `renderConditionSpecParens`)
disagrees with the unparenthesized text `tests/simple.rs` asserts. -/
theorem c4_counterexample :
    (renderConditionSub SubTable.empty simpleTestFilter).1 =
        "attribute_exists(#0) AND #1 >= :0".toList ∧
      (renderConditionSpecParens SubTable.empty simpleTestFilter).1 =
        "(attribute_exists(#0)) AND (#1 >= :0)".toList ∧
      (renderConditionSub SubTable.empty simpleTestFilter).1 ≠
        (renderConditionSpecParens SubTable.empty simpleTestFilter).1 := by
  exact ⟨by decide, by decide, by decide⟩

/-- C4 (amended): for every pair of conditions `l` and `r`, rendering
`And(l, r)` yields `{l} AND {r}` and rendering `Or(l, r)` yields
`{l} OR {r}` — the children are rendered bare, without the parentheses the
specification sentence describes, matching the repository's test. -/
theorem c4_and_or_shape (st : SubTable) (l r : Condition) :
    (renderConditionSub st (.and l r)).1 =
        (renderConditionSub st l).1 ++ " AND ".toList ++
          (renderConditionSub (renderConditionSub st l).2 r).1 ∧
      (renderConditionSub st (.or l r)).1 =
        (renderConditionSub st l).1 ++ " OR ".toList ++
          (renderConditionSub (renderConditionSub st l).2 r).1 := by
  rw [renderConditionSub_and, renderConditionSub_or]
  exact ⟨rfl, rfl⟩

/-- C5: every public `Element` construction site canonicalizes — with an
empty index collection `Element::indexed_field`, the tuple conversion, and
the conversion from an `IndexedField` value all produce the plain name
variant, with a non-empty one they produce an `IndexedField` carrying
exactly those indexes, and consequently none of them ever produces an
`IndexedField` with an empty index sequence. -/
theorem c5_canonical_constructors (n : Chars) (ixs : List Nat) :
    (ixs = [] → Element.mkIndexedField n ixs = .name n ∧
      Element.ofTuple n ixs = .name n ∧
      Element.ofIndexedField ⟨n, ixs⟩ = .name n) ∧
      (ixs ≠ [] → Element.mkIndexedField n ixs = .indexedField n ixs ∧
        Element.ofTuple n ixs = .indexedField n ixs ∧
        Element.ofIndexedField ⟨n, ixs⟩ = .indexedField n ixs) ∧
      (∀ m, Element.mkIndexedField n ixs ≠ .indexedField m [] ∧
        Element.ofTuple n ixs ≠ .indexedField m [] ∧
        Element.ofIndexedField ⟨n, ixs⟩ ≠ .indexedField m []) := by
  unfold Element.mkIndexedField Element.ofTuple Element.ofIndexedField
  refine ⟨fun h => ?_, fun h => ?_, fun m => ?_⟩
  · subst h
    exact ⟨rfl, rfl, rfl⟩
  · simp [h]
  · by_cases h : ixs = [] <;> simp [h]

/-- C5 (witness): the canonicalization applied at a concrete name with an
empty and a non-empty index list. -/
theorem c5_witness :
    (Element.mkIndexedField ("a".toList) [] = .name ("a".toList) ∧
      Element.ofTuple ("a".toList) [] = .name ("a".toList) ∧
      Element.ofIndexedField ⟨"a".toList, []⟩ = .name ("a".toList)) ∧
      (Element.mkIndexedField ("a".toList) [1] =
          .indexedField ("a".toList) [1] ∧
        Element.ofTuple ("a".toList) [1] = .indexedField ("a".toList) [1] ∧
        Element.ofIndexedField ⟨"a".toList, [1]⟩ =
          .indexedField ("a".toList) [1]) :=
  ⟨(c5_canonical_constructors ("a".toList) []).1 rfl,
    (c5_canonical_constructors ("a".toList) [1]).2.1 (by decide)⟩

/-- C6 (counterexample): `Path`'s `FromIterator` does not enforce
non-emptiness — collecting from the empty iterator yields a `Path` whose
element sequence is empty, contrary to the claim. -/
theorem c6_counterexample : (Path.fromIter ([] : List Element)).path = [] :=
  rfl

/-- C6 (amended): every `Path` produced by parsing a text has a non-empty
element sequence, as does the conversion from a single element; a `Path`
collected from an iterator holds exactly the iterator's elements, so it is
non-empty only when the iterator yielded at least one element. -/
theorem c6_nonempty :
    (∀ s p, pathFromStr s = some p → p.path ≠ []) ∧
      (∀ e, (Path.fromElement e).path ≠ []) ∧
      (∀ l : List Element, l ≠ [] → (Path.fromIter l).path ≠ []) := by
  refine ⟨?_, fun e => by simp [Path.fromElement],
    fun l h => by simpa [Path.fromIter] using h⟩
  intro s p h
  obtain ⟨es, hes, rfl⟩ := pathFromStr_decomp h
  show es ≠ []
  intro hnil
  subst hnil
  have := (mapOption_eq_some_iff.mp hes).length_eq
  simp at this
  exact splitDot_ne_nil s this

/-- C6 (witness): the non-emptiness facts applied at the concrete text `a`
and a concrete one-element iterator. -/
theorem c6_witness :
    (Path.mk [Element.name ("a".toList)]).path ≠ [] ∧
      (Path.fromIter [Element.name []]).path ≠ [] :=
  ⟨c6_nonempty.1 ("a".toList) (Path.mk [Element.name ("a".toList)])
      (by decide),
    c6_nonempty.2.2 [Element.name []] (by decide)⟩

/-- C7: the rendered SET element of a Math action is
`{dst} = {src} {op} {num}` where the source defaults to the destination
when the builder's `src` was never set, and the operator renders as `+` for
a builder terminated by `add` and `-` for one terminated by `sub`. -/
theorem c7_math_render (dst src : Path) (n : Chars) :
    renderMath ((Math.builder dst).addNum n) =
        renderPath dst ++ " = ".toList ++ renderPath dst ++
          " + ".toList ++ n ∧
      renderMath ((Math.builder dst).subNum n) =
        renderPath dst ++ " = ".toList ++ renderPath dst ++
          " - ".toList ++ n ∧
      renderMath (((Math.builder dst).setSrc src).addNum n) =
        renderPath dst ++ " = ".toList ++ renderPath src ++
          " + ".toList ++ n ∧
      renderMath (((Math.builder dst).setSrc src).subNum n) =
        renderPath dst ++ " = ".toList ++ renderPath src ++
          " - ".toList ++ n := by
  refine ⟨?_, ?_, ?_, ?_⟩ <;>
    simp [renderMath, Math.builder, MathBuilder.addNum, MathBuilder.subNum,
      MathBuilder.setSrc, MathBuilder.withOp, renderValuePlain, mathOpChar]

/-- C8: rendering is total — the `Display` impls present in the sources
(`Path`/`Element` in `src/path/mod.rs`, `In` in `src/condition/in_.rs`,
`Math` in `src/update/set/math.rs`), mirrored over the fallible formatter
whose only error channel is the underlying writer, always return `ok` of
the accumulated text for every well-formed AST value. -/
theorem c8_render_total :
    (∀ (p : Path) (acc : Chars), fmtPath p acc = .ok (acc ++ renderPath p)) ∧
      (∀ (i : In) (acc : Chars), fmtIn i acc = .ok (acc ++ renderIn i)) ∧
      (∀ (m : Math) (acc : Chars),
        fmtMath m acc = .ok (acc ++ renderMath m)) ∧
      (∀ (e : Element) (acc : Chars),
        fmtElement e acc = .ok (acc ++ renderElement e)) :=
  ⟨fmtPath_ok, fmtIn_ok, fmtMath_ok, fmtElement_ok⟩

/-- C9: parsing the empty string succeeds as a one-element path whose
element is a name with empty text; in general every bracket-free segment
text parses as a plain name — so the empty segments of `foo..bar` and
`foo.` are accepted, and empty attribute names are never rejected. -/
theorem c9_empty_names :
    pathFromStr [] = some ⟨[.name []]⟩ ∧
      (∀ s : Chars, '[' ∉ s → ']' ∉ s →
        elementFromStr s = some (.name s)) ∧
      pathFromStr ("foo..bar".toList) =
        some ⟨[.name ("foo".toList), .name [], .name ("bar".toList)]⟩ ∧
      pathFromStr ("foo.".toList) =
        some ⟨[.name ("foo".toList), .name []]⟩ :=
  ⟨by decide, fun _ h1 h2 => elementFromStr_name h1 h2, by decide, by decide⟩

/-- C9 (witness): the bracket-free clause applied at the concrete segment
`ab`. -/
theorem c9_witness : elementFromStr ("ab".toList) =
    some (.name ("ab".toList)) :=
  c9_empty_names.2.1 ("ab".toList) (by decide) (by decide)

/-- C10: a bracketed index parses only when it fits in an unsigned 32-bit
integer — `foo[4294967296]` fails, and in general any path text containing
a bracket whose contents are a digit string denoting a value of at least
`2^32` fails to parse, even though the contents are a valid non-negative
integer. -/
theorem c10_u32_bound :
    pathFromStr ("foo[4294967296]".toList) = none ∧
      ∀ a d b : Chars, (∀ c ∈ d, c.isDigit = true) →
        2 ^ 32 ≤ digitsVal d →
        pathFromStr (a ++ '[' :: (d ++ ']' :: b)) = none :=
  ⟨by decide, fun _ _ _ h1 h2 => pathFromStr_big_bracket h1 h2⟩

/-- C10 (witness): the general bound applied at the concrete surroundings
`foo[…]` with contents `4294967296`. -/
theorem c10_witness :
    pathFromStr ("foo".toList ++ '[' ::
      ("4294967296".toList ++ ']' :: ("".toList))) = none :=
  c10_u32_bound.2 ("foo".toList) ("4294967296".toList) ("".toList)
    (by decide) (by decide)

end DynExp
